import Mathlib

set_option maxHeartbeats 1000000

/-!
Shallow embedding of the text transform/analysis engine of the
local-ai-assistant-extension repository, together with proofs about it.

The embedding covers:
* `src/workers/transformWorker.ts` — the transform pipeline
  (`applyLengthTransform`, `applyToneTransform`, `applyStyleTransform`,
  `calculateChangeRatio`, `performTransform`, `performAnalyze`),
* `src/workers/nlpWorker.ts` — the analysis engine (`extractKeywords`,
  `calculateReadabilityScore`, `countSyllables`),
* `src/lib/idb/models.ts` — the bounded LRU cache (`LRUManager.evictOldest`)
  and the bounded undo history (`UndoStackManager.pushAction` / `popAction`).

Text is modelled as `List Char`.  JavaScript regular-expression scanning is
modelled by explicit, executable character scans; JavaScript number
arithmetic on the analysis formulas is modelled by exact rational
arithmetic (`ℚ`), with `Math.round x = ⌊x + 1/2⌋`.
-/

/-- ASCII whitespace class, modelling the JavaScript regex class `\s`
(restricted to its ASCII members, which are the only ones the engine's
rule tables and tests exercise). -/
def jsWs (c : Char) : Bool :=
  c = ' ' || c = '\t' || c = '\n' || c = '\r' || c = '\x0b' || c = '\x0c'

/-- Word characters, modelling the JavaScript regex class `\w` = `[A-Za-z0-9_]`. -/
def isWordChar (c : Char) : Bool :=
  ('a' ≤ c && c ≤ 'z') || ('A' ≤ c && c ≤ 'Z') || ('0' ≤ c && c ≤ '9') || c = '_'

/-- Sentence-terminal punctuation, the class `[.!?]` used by the sentence
splitting regex `/[^.!?]+[.!?]+/g` in both workers. -/
def isTermChar (c : Char) : Bool :=
  c = '.' || c = '!' || c = '?'

/-- ASCII lower-casing, modelling `String.prototype.toLowerCase` (and the
case-folding of the regex `i` flag) on the ASCII range. -/
def lowerChar (c : Char) : Char :=
  match c with
  | 'A' => 'a' | 'B' => 'b' | 'C' => 'c' | 'D' => 'd' | 'E' => 'e' | 'F' => 'f'
  | 'G' => 'g' | 'H' => 'h' | 'I' => 'i' | 'J' => 'j' | 'K' => 'k' | 'L' => 'l'
  | 'M' => 'm' | 'N' => 'n' | 'O' => 'o' | 'P' => 'p' | 'Q' => 'q' | 'R' => 'r'
  | 'S' => 's' | 'T' => 't' | 'U' => 'u' | 'V' => 'v' | 'W' => 'w' | 'X' => 'x'
  | 'Y' => 'y' | 'Z' => 'z'
  | c => c

/-- Lower-casing of a character list. -/
def lowerL (t : List Char) : List Char := t.map lowerChar

/-- Scanner for `text.split(/\s+/)`.  The second argument is `some acc`
while a token (possibly empty) is being accumulated (reversed), and `none`
immediately after a separator run has started, before its end was found. -/
def splitWsAux : List Char → Option (List Char) → List (List Char)
  | [], none => [[]]
  | [], some acc => [acc.reverse]
  | c :: rest, none =>
      if jsWs c then splitWsAux rest none else splitWsAux rest (some [c])
  | c :: rest, some acc =>
      if jsWs c then acc.reverse :: splitWsAux rest none
      else splitWsAux rest (some (c :: acc))

/-- JavaScript `text.split(/\s+/)`: tokens between maximal whitespace runs,
including an empty token at either end when the text starts or ends with
whitespace, and `[""]` on the empty string. -/
def jsSplitWs (t : List Char) : List (List Char) := splitWsAux t (some [])

theorem splitWsAux_ne_nil (t : List Char) (st : Option (List Char)) :
    splitWsAux t st ≠ [] := by
  induction t generalizing st with
  | nil => cases st <;> simp [splitWsAux]
  | cons c rest ih =>
      cases st with
      | none => by_cases h : jsWs c <;> simp [splitWsAux, h, ih]
      | some acc => by_cases h : jsWs c <;> simp [splitWsAux, h, ih]

theorem jsSplitWs_length_pos (t : List Char) : 0 < (jsSplitWs t).length := by
  have h := splitWsAux_ne_nil t (some [])
  cases hh : splitWsAux t (some []) with
  | nil => exact absurd hh h
  | cons a l => simp [jsSplitWs, hh]

/-! ## Sentence splitting (the regex `/[^.!?]+[.!?]+/g`) -/

/-- Scanner for the global regex `/[^.!?]+[.!?]+/g`: each match is a maximal
run of non-terminal characters followed by a maximal run of terminal
characters.  `body` holds the reversed non-terminal run of the match being
built and `term` its reversed terminal run; a non-empty `term` means a
complete match is pending and is emitted when a non-terminal character (or
the end of the text) follows. -/
def scanAux : List Char → List Char → List Char → List (List Char)
  | [], body, term =>
      if term = [] then [] else [body.reverse ++ term.reverse]
  | c :: rest, body, term =>
      if isTermChar c then
        (if body = [] then scanAux rest [] [] else scanAux rest body (c :: term))
      else
        (if term = [] then scanAux rest (c :: body) []
         else (body.reverse ++ term.reverse) :: scanAux rest [c] [])

/-- The list of matches of `text.match(/[^.!?]+[.!?]+/g)` (empty when the
regex does not match, i.e. when JavaScript returns `null`). -/
def sentenceSplit (t : List Char) : List (List Char) := scanAux t [] []

/-- The sentence units used by both workers: the regex matches, with the
whole text as a single sentence when the regex does not match
(`text.match(...) || [text]`). -/
def sentencesOf (t : List Char) : List (List Char) :=
  if sentenceSplit t = [] then [t] else sentenceSplit t

/-- Joining a list of sentence chunks with a single space,
modelling `Array.prototype.join(' ')`. -/
def joinSp : List (List Char) → List Char
  | [] => []
  | [u] => u
  | u :: v :: us => u ++ ' ' :: joinSp (v :: us)

/-- Number of sentence units the engine sees in a text. -/
def countSentences (t : List Char) : Nat := (sentencesOf t).length

/-! ## Bounded data structures (`src/lib/idb/models.ts`) -/

/-- A cache record as stored by the LRU manager (interface `CacheEntry`);
the opaque `value` payload is modelled by a `Nat`. -/
structure CacheEntry where
  cacheKey : String
  value : Nat
  lastAccessedAt : Nat
  deriving DecidableEq, Repr

/-- Stable insertion of an entry into a list that is ascending by
`lastAccessedAt`: the new entry goes after all entries whose access time
is less than or equal to its own, which is the (unique) result mandated
for the stable `Array.prototype.sort` with comparator
`(a, b) => a.lastAccessedAt - b.lastAccessedAt`. -/
def insertByTime (e : CacheEntry) : List CacheEntry → List CacheEntry
  | [] => [e]
  | f :: fs =>
      if f.lastAccessedAt ≤ e.lastAccessedAt then f :: insertByTime e fs
      else e :: f :: fs

/-- Stable ascending sort by `lastAccessedAt`, modelling
`entries.sort((a, b) => a.lastAccessedAt - b.lastAccessedAt)`. -/
def sortByTime (l : List CacheEntry) : List CacheEntry :=
  l.foldl (fun acc e => insertByTime e acc) []

/-- Model of `LRUManager.evictOldest` from `src/lib/idb/models.ts`: when the
store holds more than `maxSize` entries, sort by `lastAccessedAt` ascending,
and delete (by key) the first `entries.length - maxSize` of them. -/
def evictOldest (maxSize : Nat) (entries : List CacheEntry) : List CacheEntry :=
  if maxSize < entries.length then
    entries.filter (fun e =>
      !((((sortByTime entries).take (entries.length - maxSize)).map
          (fun f => f.cacheKey)).contains e.cacheKey))
  else entries

/-- An undo record (interface `UndoAction`); the `unknown` payload field
`data` is modelled by a `Nat`. -/
structure UndoAction where
  actionType : String
  timestamp : Nat
  data : Nat
  deriving DecidableEq, Repr

/-- A per-site undo stack (interface `UndoStack`), most recent action first. -/
structure UndoStack where
  siteKey : String
  actions : List UndoAction
  deriving DecidableEq, Repr

/-- Model of `UndoStackManager.pushAction`: prepend the new action and
truncate to the first `maxActions` entries
(`[action, ...stack.actions].slice(0, this.maxActions)`). -/
def pushAction (maxActions : Nat) (stack : UndoStack) (action : UndoAction) :
    UndoStack :=
  { stack with actions := (action :: stack.actions).take maxActions }

/-- Model of `UndoStackManager.popAction`: remove and return the action at
index 0; on an empty stack return the stack unchanged and no action. -/
def popAction (stack : UndoStack) : UndoStack × Option UndoAction :=
  match stack.actions with
  | [] => (stack, none)
  | a :: rest => ({ stack with actions := rest }, some a)

/-- Pushing a whole list of actions in order, oldest first. -/
def pushMany (maxActions : Nat) (stack : UndoStack) (l : List UndoAction) :
    UndoStack :=
  l.foldl (pushAction maxActions) stack

/-! ### Lemmas about the bounded structures -/

theorem insertByTime_append (e : CacheEntry) (l : List CacheEntry)
    (h : ∀ f ∈ l, f.lastAccessedAt ≤ e.lastAccessedAt) :
    insertByTime e l = l ++ [e] := by
  induction l with
  | nil => rfl
  | cons f fs ih =>
      have hf : f.lastAccessedAt ≤ e.lastAccessedAt := h f (by simp)
      simp only [insertByTime, hf, if_pos]
      rw [ih (fun g hg => h g (by simp [hg]))]
      simp

theorem sortByTime_aux_sorted (l acc : List CacheEntry)
    (hacc : ∀ a ∈ acc, ∀ b ∈ l, a.lastAccessedAt ≤ b.lastAccessedAt)
    (hl : l.Pairwise (fun a b => a.lastAccessedAt ≤ b.lastAccessedAt)) :
    l.foldl (fun acc e => insertByTime e acc) acc = acc ++ l := by
  induction l generalizing acc with
  | nil => simp
  | cons e fs ih =>
      have h1 : insertByTime e acc = acc ++ [e] :=
        insertByTime_append e acc (fun f hf => hacc f hf e (by simp))
      simp only [List.foldl_cons, h1]
      rw [ih (acc ++ [e])]
      · simp
      · intro a ha b hb
        rcases List.mem_append.1 ha with h | h
        · exact hacc a h b (by simp [hb])
        · simp only [List.mem_singleton] at h
          subst h
          exact (List.pairwise_cons.1 hl).1 b hb
      · exact (List.pairwise_cons.1 hl).2

theorem sortByTime_of_sorted (l : List CacheEntry)
    (hl : l.Pairwise (fun a b => a.lastAccessedAt ≤ b.lastAccessedAt)) :
    sortByTime l = l := by
  have := sortByTime_aux_sorted l [] (by simp) hl
  simpa [sortByTime] using this

/-- CLAIM C8.  For the bounded LRU cache with capacity `cap`, after the
store holds `cap + 1` entries with distinct keys and strictly increasing
`lastAccessedAt` (in insertion order), running eviction removes exactly the
entry with the smallest `lastAccessedAt` (the first one); every other entry
is still present and the entry count is at most `cap`. -/
theorem evictOldest_lru (cap : Nat) (l : List CacheEntry)
    (hlen : l.length = cap + 1)
    (hinc : l.Pairwise (fun a b => a.lastAccessedAt < b.lastAccessedAt))
    (hkeys : (l.map (fun e => e.cacheKey)).Nodup) :
    evictOldest cap l = l.drop 1 ∧ (evictOldest cap l).length ≤ cap ∧
      ∀ e, l.head? = some e → e ∉ evictOldest cap l := by
  have hsort : sortByTime l = l :=
    sortByTime_of_sorted l (hinc.imp (fun h => le_of_lt h))
  have hcond : cap < l.length := by omega
  cases l with
  | nil => simp at hlen
  | cons e0 rest =>
      have hlen' : rest.length = cap := by simpa using hlen
      have htake : (e0 :: rest).length - cap = 1 := by simp [hlen']
      have hkey0 : ∀ f ∈ rest, f.cacheKey ≠ e0.cacheKey := by
        intro f hf heq
        simp only [List.map_cons, List.nodup_cons] at hkeys
        exact hkeys.1 (heq ▸ List.mem_map_of_mem (fun e => e.cacheKey) hf)
      have hres : evictOldest cap (e0 :: rest) = rest := by
        have htake1 : (sortByTime (e0 :: rest)).take ((e0 :: rest).length - cap)
            = [e0] := by
          rw [hsort, htake]
          simp
        simp only [evictOldest, if_pos hcond, htake1, List.map_cons,
          List.map_nil]
        rw [List.filter_cons]
        rw [if_neg (by simp)]
        apply List.filter_eq_self.2
        intro f hf
        simp [hkey0 f hf]
      refine ⟨by simpa using hres, ?_, ?_⟩
      · rw [hres]
        omega
      · intro e he
        simp only [List.head?_cons, Option.some.injEq] at he
        subst he
        rw [hres]
        intro hmem
        exact hkey0 e0 hmem rfl

/-- Witness for C8 at capacity 1 with two concrete entries. -/
theorem evictOldest_lru_witness :
    evictOldest 1 [⟨"a", 0, 5⟩, ⟨"b", 0, 7⟩] = [⟨"b", 0, 7⟩] :=
  (evictOldest_lru 1 [⟨"a", 0, 5⟩, ⟨"b", 0, 7⟩] rfl
    (by decide) (by decide)).1

theorem pushMany_actions (maxActions : Nat) (l : List UndoAction)
    (s : UndoStack) (hs : s.actions.length ≤ maxActions) :
    (pushMany maxActions s l).actions = (l.reverse ++ s.actions).take maxActions := by
  induction l generalizing s with
  | nil =>
      simp [pushMany, List.take_of_length_le hs]
  | cons a rest ih =>
      have h1 : (pushAction maxActions s a).actions =
          (a :: s.actions).take maxActions := rfl
      have h2 : (pushAction maxActions s a).actions.length ≤ maxActions := by
        rw [h1, List.length_take]
        omega
      have h3 := ih (pushAction maxActions s a) h2
      simp only [pushMany, List.foldl_cons] at h3 ⊢
      have h4 : ∀ (u v : List UndoAction) (n : Nat),
          (u ++ v.take n).take n = (u ++ v).take n := by
        intro u v n
        rw [List.take_append_eq_append_take, List.take_append_eq_append_take,
          List.take_take]
        congr 2
        omega
      rw [h3, h1, h4 rest.reverse (a :: s.actions) maxActions]
      simp [List.reverse_cons, List.append_assoc]

/-- CLAIM C9.  The bounded history: push prepends and truncates so that the
stack never exceeds `N` actions; pushing `N + 5` (distinct) actions onto an
empty stack leaves exactly `N` actions with the 5 oldest pushed actions
absent; and popping an empty stack returns no action and leaves the stack
unchanged. -/
theorem boundedHistory_invariant :
    (∀ (N : Nat) (s : UndoStack) (a : UndoAction), s.actions.length ≤ N →
      (pushAction N s a).actions = (a :: s.actions).take N ∧
        (pushAction N s a).actions.length ≤ N) ∧
    (∀ (N : Nat) (k : String) (l : List UndoAction), l.length = N + 5 →
      l.Nodup →
      (pushMany N ⟨k, []⟩ l).actions.length = N ∧
        ∀ a ∈ l.take 5, a ∉ (pushMany N ⟨k, []⟩ l).actions) ∧
    (∀ s : UndoStack, s.actions = [] → popAction s = (s, none)) := by
  refine ⟨?_, ?_, ?_⟩
  · intro N s a _h
    refine ⟨rfl, ?_⟩
    simp [pushAction]
  · intro N k l hlen hnd
    have hacts : (pushMany N ⟨k, []⟩ l).actions = l.reverse.take N := by
      rw [pushMany_actions N l ⟨k, []⟩ (by simp)]
      simp
    have hdecomp : l = l.take 5 ++ l.drop 5 := (List.take_append_drop 5 l).symm
    have hdroplen : (l.drop 5).length = N := by
      simp [hlen]
    have htake : l.reverse.take N = (l.drop 5).reverse := by
      conv_lhs => rw [hdecomp]
      rw [List.reverse_append]
      rw [List.take_append_of_le_length (by simp [hdroplen])]
      rw [List.take_of_length_le (by simp [hdroplen])]
    constructor
    · rw [hacts, htake]
      simp [hdroplen]
    · intro a ha hmem
      rw [hacts, htake, List.mem_reverse] at hmem
      have hnd' : (l.take 5 ++ l.drop 5).Nodup := by rw [← hdecomp]; exact hnd
      exact (List.disjoint_of_nodup_append hnd') ha hmem
  · intro s hs
    simp [popAction, hs]

/-- Witness for C9 at `N = 1` with six concrete distinct actions, plus the
empty-pop case. -/
theorem boundedHistory_invariant_witness :
    ((pushAction 10 ⟨"s", []⟩ ⟨"t", 0, 0⟩).actions = [⟨"t", 0, 0⟩]) ∧
    ((pushMany 1 ⟨"x", []⟩ [⟨"a", 1, 0⟩, ⟨"a", 2, 0⟩, ⟨"a", 3, 0⟩,
        ⟨"a", 4, 0⟩, ⟨"a", 5, 0⟩, ⟨"a", 6, 0⟩]).actions.length = 1) ∧
    (popAction ⟨"s", []⟩ = (⟨"s", []⟩, none)) := by
  refine ⟨?_, ?_, ?_⟩
  · have h := (boundedHistory_invariant.1 10 ⟨"s", []⟩ ⟨"t", 0, 0⟩
      (by simp)).1
    simpa using h
  · exact (boundedHistory_invariant.2.1 1 "x"
      [⟨"a", 1, 0⟩, ⟨"a", 2, 0⟩, ⟨"a", 3, 0⟩, ⟨"a", 4, 0⟩, ⟨"a", 5, 0⟩,
        ⟨"a", 6, 0⟩] rfl (by decide)).1
  · exact boundedHistory_invariant.2.2 ⟨"s", []⟩ rfl

/-- CLAIM C10.  On a stack that is not full, popping right after pushing
returns the pushed action and restores the original stack exactly
(same `siteKey`, same `actions`). -/
theorem popAction_pushAction (N : Nat) (s : UndoStack) (a : UndoAction)
    (h : s.actions.length < N) :
    popAction (pushAction N s a) = (s, some a) := by
  obtain ⟨k, acts⟩ := s
  simp only [UndoStack.actions] at h
  have htk : (a :: acts).take N = a :: acts :=
    List.take_of_length_le (by simp only [List.length_cons]; omega)
  show popAction ⟨k, (a :: acts).take N⟩ = _
  rw [htk]
  rfl

/-- Witness for C10 on a concrete one-element stack with capacity 10. -/
theorem popAction_pushAction_witness :
    popAction (pushAction 10 ⟨"s", [⟨"old", 1, 1⟩]⟩ ⟨"new", 2, 2⟩) =
      (⟨"s", [⟨"old", 1, 1⟩]⟩, some ⟨"new", 2, 2⟩) :=
  popAction_pushAction 10 ⟨"s", [⟨"old", 1, 1⟩]⟩ ⟨"new", 2, 2⟩ (by simp)

/-! ## The length stage (`applyLengthTransform`) -/

/-- The four length modes of the settings object. -/
inductive LengthMode where
  | short
  | medium
  | long
  | custom
  deriving DecidableEq, Repr

/-- Printable mode name, used only in the rule-trace string. -/
def modeName : LengthMode → String
  | .short => "short"
  | .medium => "medium"
  | .long => "long"
  | .custom => "custom"

/-- Target sentence count computed by `applyLengthTransform`
(the `switch` on `length`); `Math.ceil(n * 0.3)` is modelled exactly by the
rational ceiling, and `customLength || sentences.length` makes both an
absent and a zero `customLength` fall back to the sentence total. -/
def lengthTarget (mode : LengthMode) (customLength : Option Nat)
    (total : Nat) : Nat :=
  match mode with
  | .short => max 1 (Nat.ceil ((0.3 : ℚ) * total))
  | .medium => max 1 (Nat.ceil ((0.6 : ℚ) * total))
  | .long => total
  | .custom =>
      match customLength with
      | some n => if n = 0 then total else n
      | none => total

/-- A stage outcome: the rewritten text and the rule-trace entry. -/
structure StageResult where
  text : List Char
  rule : String
  deriving Repr

/-- Model of `applyLengthTransform` from `src/workers/transformWorker.ts`:
split into sentence units, keep the first `target` of them, join with a
single space. -/
def applyLengthTransform (t : List Char) (mode : LengthMode)
    (customLength : Option Nat) : StageResult :=
  { text := joinSp ((sentencesOf t).take
      (lengthTarget mode customLength (sentencesOf t).length)),
    rule := "length_" ++ modeName mode ++ "_" ++
      toString (lengthTarget mode customLength (sentencesOf t).length) ++
      "_sentences" }

/-- Target sentence count exactly as CLAIM C4 words it: plain ceilings for
short/medium, the total for long, and for custom the given `customLength`
clamped to at least 1, with the total as default only when it is absent. -/
def lengthTargetClaim (mode : LengthMode) (customLength : Option Nat)
    (total : Nat) : Nat :=
  match mode with
  | .short => Nat.ceil ((0.3 : ℚ) * total)
  | .medium => Nat.ceil ((0.6 : ℚ) * total)
  | .long => total
  | .custom =>
      match customLength with
      | some n => max 1 n
      | none => total

/-- Target sentence count as CLAIM C4 must be amended: same as the claim
except that a present `customLength` of 0 is falsy in
`customLength || sentences.length` and therefore falls back to the total
instead of being clamped to 1. -/
def lengthTargetAmended (mode : LengthMode) (customLength : Option Nat)
    (total : Nat) : Nat :=
  match mode with
  | .short => Nat.ceil ((0.3 : ℚ) * total)
  | .medium => Nat.ceil ((0.6 : ℚ) * total)
  | .long => total
  | .custom =>
      match customLength with
      | some n => if n = 0 then total else n
      | none => total

theorem sentencesOf_ne_nil (t : List Char) : sentencesOf t ≠ [] := by
  unfold sentencesOf
  split
  · simp
  · assumption

theorem sentencesOf_length_pos (t : List Char) : 1 ≤ (sentencesOf t).length := by
  have h := sentencesOf_ne_nil t
  cases hh : sentencesOf t with
  | nil => exact absurd hh h
  | cons a l => simp

theorem lengthTarget_eq_amended (mode : LengthMode) (c : Option Nat)
    (total : Nat) (h : 1 ≤ total) :
    lengthTarget mode c total = lengthTargetAmended mode c total := by
  have hq : (0 : ℚ) < (total : ℚ) := by
    have : (1 : ℚ) ≤ (total : ℚ) := by exact_mod_cast h
    linarith
  cases mode with
  | short =>
      have h3 : (0 : ℚ) < (0.3 : ℚ) * total := by
        apply mul_pos (by norm_num) hq
      have := Nat.one_le_ceil_iff.2 h3
      simp only [lengthTarget, lengthTargetAmended]
      omega
  | medium =>
      have h6 : (0 : ℚ) < (0.6 : ℚ) * total := by
        apply mul_pos (by norm_num) hq
      have := Nat.one_le_ceil_iff.2 h6
      simp only [lengthTarget, lengthTargetAmended]
      omega
  | long => rfl
  | custom => rfl

/-- CLAIM C4 (amended).  The length stage keeps the first `target` sentence
units joined by a single space, where `target` is `ceil(0.3 × total)` for
short, `ceil(0.6 × total)` for medium, `total` for long, and for custom the
given `customLength` when it is present and non-zero, with the total as
fallback when it is absent or 0 (the code's `customLength ||
sentences.length`); the claim's clamp of `customLength` to at least 1 does
not hold at `customLength = 0`. -/
theorem applyLength_target (t : List Char) (mode : LengthMode)
    (c : Option Nat) :
    (applyLengthTransform t mode c).text =
      joinSp ((sentencesOf t).take
        (lengthTargetAmended mode c (sentencesOf t).length)) := by
  unfold applyLengthTransform
  rw [lengthTarget_eq_amended mode c (sentencesOf t).length
    (sentencesOf_length_pos t)]

/-- Counterexample to CLAIM C4 as stated: on the two-sentence text
`"One. Two."` with mode custom and `customLength = 0`, the code keeps both
sentences (0 is falsy, so the target falls back to the total 2), while the
claim's clamp to ≥ 1 would keep exactly one sentence. -/
theorem applyLength_customZero_counterexample :
    (applyLengthTransform ("One. Two.".toList) .custom (some 0)).text =
        "One.  Two.".toList ∧
    joinSp ((sentencesOf ("One. Two.".toList)).take
        (lengthTargetClaim .custom (some 0)
          (sentencesOf ("One. Two.".toList)).length)) = "One.".toList ∧
    ("One.  Two.".toList : List Char) ≠ "One.".toList := by
  refine ⟨by decide, by decide, by decide⟩

/-! ## Sentence count preservation for mode long (CLAIM C5) -/

/-- A well-formed sentence unit: a non-empty non-terminal run followed by a
non-empty terminal run — the shape of every match of `/[^.!?]+[.!?]+/g`. -/
def wellFormedUnit (u : List Char) : Prop :=
  ∃ b e, u = b ++ e ∧ b ≠ [] ∧ (∀ c ∈ b, isTermChar c = false) ∧
    e ≠ [] ∧ (∀ c ∈ e, isTermChar c = true)

theorem scanAux_shapes (cs : List Char) :
    ∀ body term, (∀ c ∈ body, isTermChar c = false) →
      (∀ c ∈ term, isTermChar c = true) → (term ≠ [] → body ≠ []) →
      ∀ u ∈ scanAux cs body term, wellFormedUnit u := by
  induction cs with
  | nil =>
      intro body term hb ht hbt u hu
      simp only [scanAux] at hu
      split at hu
      · simp at hu
      · rename_i hterm
        simp only [List.mem_singleton] at hu
        subst hu
        refine ⟨body.reverse, term.reverse, rfl, ?_, ?_, ?_, ?_⟩
        · intro h
          exact hbt hterm (by simpa using h)
        · intro c hc
          exact hb c (List.mem_reverse.1 hc)
        · intro h
          exact hterm (by simpa using h)
        · intro c hc
          exact ht c (List.mem_reverse.1 hc)
  | cons c rest ih =>
      intro body term hb ht hbt u hu
      simp only [scanAux] at hu
      by_cases hterm : isTermChar c
      · rw [if_pos hterm] at hu
        by_cases hbody : body = []
        · rw [if_pos hbody] at hu
          exact ih [] [] (by simp) (by simp) (by simp) u hu
        · rw [if_neg hbody] at hu
          refine ih body (c :: term) hb ?_ (fun _ => hbody) u hu
          intro d hd
          rcases List.mem_cons.1 hd with h | h
          · subst h; exact hterm
          · exact ht d h
      · rw [if_neg hterm] at hu
        simp only [Bool.not_eq_true] at hterm
        by_cases ht0 : term = []
        · rw [if_pos ht0] at hu
          refine ih (c :: body) [] ?_ (by simp) (by simp) u hu
          intro d hd
          rcases List.mem_cons.1 hd with h | h
          · subst h; exact hterm
          · exact hb d h
        · rw [if_neg ht0] at hu
          rcases List.mem_cons.1 hu with h | h
          · subst h
            refine ⟨body.reverse, term.reverse, rfl, ?_, ?_, ?_, ?_⟩
            · intro hh
              exact hbt ht0 (by simpa using hh)
            · intro d hd
              exact hb d (List.mem_reverse.1 hd)
            · intro hh
              exact ht0 (by simpa using hh)
            · intro d hd
              exact ht d (List.mem_reverse.1 hd)
          · refine ih [c] [] ?_ (by simp) (by simp) u h
            intro d hd
            simp only [List.mem_singleton] at hd
            subst hd
            exact hterm

theorem scanAux_cons_nonterm_newrun (c : Char) (rest body : List Char)
    (hc : isTermChar c = false) :
    scanAux (c :: rest) body [] = scanAux rest (c :: body) [] := by
  simp [scanAux, hc]

theorem scanAux_cons_term (c : Char) (rest body term : List Char)
    (hc : isTermChar c = true) (hb : body ≠ []) :
    scanAux (c :: rest) body term = scanAux rest body (c :: term) := by
  simp [scanAux, hc, hb]

theorem scanAux_cons_nonterm_emit (c : Char) (rest body term : List Char)
    (hc : isTermChar c = false) (ht : term ≠ []) :
    scanAux (c :: rest) body term =
      (body.reverse ++ term.reverse) :: scanAux rest [c] [] := by
  simp [scanAux, hc, ht]

theorem scanAux_nil_pending (body term : List Char) (ht : term ≠ []) :
    scanAux [] body term = [body.reverse ++ term.reverse] := by
  simp [scanAux, ht]

theorem scanAux_nonterm_absorb (b : List Char)
    (hb : ∀ c ∈ b, isTermChar c = false) :
    ∀ rest body, scanAux (b ++ rest) body [] =
      scanAux rest (b.reverse ++ body) [] := by
  induction b with
  | nil => intro rest body; simp
  | cons c b' ih =>
      intro rest body
      have hc : isTermChar c = false := hb c (by simp)
      rw [List.cons_append, scanAux_cons_nonterm_newrun c (b' ++ rest) body hc]
      rw [ih (fun d hd => hb d (by simp [hd])) rest (c :: body)]
      congr 1
      simp

theorem scanAux_term_absorb (e : List Char)
    (he : ∀ c ∈ e, isTermChar c = true) :
    ∀ rest body term, body ≠ [] →
      scanAux (e ++ rest) body term = scanAux rest body (e.reverse ++ term) := by
  induction e with
  | nil => intro rest body term _; simp
  | cons c e' ih =>
      intro rest body term hbody
      have hc : isTermChar c = true := he c (by simp)
      rw [List.cons_append, scanAux_cons_term c (e' ++ rest) body term hc hbody]
      rw [ih (fun d hd => he d (by simp [hd])) rest body (c :: term) hbody]
      congr 1
      simp

theorem scanAux_joinSp_length (us : List (List Char))
    (hus : ∀ u ∈ us, wellFormedUnit u) :
    ∀ body, (scanAux (joinSp us) body []).length = us.length := by
  induction us with
  | nil => intro body; simp [joinSp, scanAux]
  | cons u us' ih =>
      intro body
      obtain ⟨b, e, hu, hbne, hb, hene, he⟩ := hus u (by simp)
      cases us' with
      | nil =>
          simp only [joinSp]
          rw [hu, show b ++ e = b ++ (e ++ []) by simp]
          rw [scanAux_nonterm_absorb b hb (e ++ []) body]
          rw [scanAux_term_absorb e he [] (b.reverse ++ body) [] (by simp [hbne])]
          rw [scanAux_nil_pending _ _ (by simp [hene])]
          simp
      | cons v vs =>
          simp only [joinSp]
          rw [hu, show (b ++ e) ++ ' ' :: joinSp (v :: vs)
              = b ++ (e ++ (' ' :: joinSp (v :: vs))) by simp]
          rw [scanAux_nonterm_absorb b hb _ body]
          rw [scanAux_term_absorb e he _ (b.reverse ++ body) [] (by simp [hbne])]
          rw [scanAux_cons_nonterm_emit ' ' (joinSp (v :: vs)) _ _
            (by decide) (by simp [hene])]
          simp only [List.length_cons]
          rw [ih (fun w hw => hus w (by simp [hw])) [' ']]
          simp

/-- CLAIM C5.  Applying the length stage with mode long yields a text with
exactly as many sentence units as the input, where sentence units are the
matches of `/[^.!?]+[.!?]+/g` and a text with no match counts as one
sentence. -/
theorem sentencesOf_nomatch (u : List Char) (h : sentenceSplit u = []) :
    sentencesOf u = [u] := by
  unfold sentencesOf
  rw [if_pos h]

theorem sentencesOf_match (u : List Char) (h : sentenceSplit u ≠ []) :
    sentencesOf u = sentenceSplit u := by
  unfold sentencesOf
  rw [if_neg h]

theorem applyLength_long_count (t : List Char) :
    countSentences (applyLengthTransform t .long none).text = countSentences t := by
  have htext : (applyLengthTransform t .long none).text = joinSp (sentencesOf t) := by
    show joinSp ((sentencesOf t).take (sentencesOf t).length) = _
    rw [List.take_length]
  rw [htext]
  by_cases h : sentenceSplit t = []
  · have hone : sentencesOf t = [t] := sentencesOf_nomatch t h
    unfold countSentences
    rw [hone]
    simp only [joinSp]
    rw [hone]
  · have hs : sentencesOf t = sentenceSplit t := sentencesOf_match t h
    have hsh : ∀ u ∈ sentencesOf t, wellFormedUnit u := by
      rw [hs]
      exact fun u hu => scanAux_shapes t [] [] (by simp) (by simp) (by simp) u hu
    have hlen := scanAux_joinSp_length (sentencesOf t) hsh []
    have hpos : 1 ≤ (sentencesOf t).length := sentencesOf_length_pos t
    have hne : sentenceSplit (joinSp (sentencesOf t)) ≠ [] := by
      intro hnil
      have h0 : (scanAux (joinSp (sentencesOf t)) [] []).length = 0 := by
        show (sentenceSplit (joinSp (sentencesOf t))).length = 0
        rw [hnil]
        rfl
      omega
    unfold countSentences
    rw [sentencesOf_match _ hne]
    exact hlen

/-! ## Word-boundary regex replacement (`new RegExp('\\b' + from + '\\b', 'gi')`) -/

/-- Wordness of an optional character; the string edge (`none`) counts as a
non-word position, as it does for the regex `\b`. -/
def wOpt : Option Char → Bool
  | none => false
  | some c => isWordChar c

/-- Single-character comparison: with the `i` flag both sides are
lower-cased, without it they are compared as-is. -/
def charMatches (ci : Bool) (a b : Char) : Bool :=
  if ci then lowerChar a == lowerChar b else a == b

/-- Whether `pat` matches character-wise at the start of `s`. -/
def matchesAt (ci : Bool) : List Char → List Char → Bool
  | [], _ => true
  | _ :: _, [] => false
  | p :: ps, c :: cs => charMatches ci p c && matchesAt ci ps cs

/-- Whether the anchored pattern `\b pat \b` matches at the current scan
position: `prev` is the character just before the position (`none` at the
start of the text) and `s` the remaining text.  A `\b` holds where the two
neighbouring positions differ in wordness, edges counting as non-word. -/
def wbHit (ci : Bool) (pat : List Char) (prev : Option Char) (s : List Char) :
    Bool :=
  matchesAt ci pat s &&
    (wOpt prev != wOpt s.head?) &&
    (wOpt ((s.take pat.length).getLast?) != wOpt ((s.drop pat.length).head?))

/-- Fuel-indexed scanner for `text.replace(/\b pat \b/g[i], rep)`: scan the
original text left to right, replace each non-overlapping anchored match
and resume right after it.  The fuel (initialised with the text length,
which suffices for non-empty patterns) makes the recursion structural. -/
def replFuel (ci : Bool) (pat rep : List Char) :
    Nat → Option Char → List Char → List Char
  | 0, _, s => s
  | _ + 1, _, [] => []
  | fuel + 1, prev, c :: rest =>
      if wbHit ci pat prev (c :: rest) then
        rep ++ replFuel ci pat rep fuel (((c :: rest).take pat.length).getLast?)
          ((c :: rest).drop pat.length)
      else
        c :: replFuel ci pat rep fuel (some c) rest

/-- Global word-boundary replacement over a whole text. -/
def replaceWB (ci : Bool) (pat rep t : List Char) : List Char :=
  replFuel ci pat rep t.length none t

/-- Whether the anchored pattern `\b pat \b` matches anywhere in the text
following the given previous character. -/
def hasWB (ci : Bool) (pat : List Char) : Option Char → List Char → Bool
  | prev, [] => wbHit ci pat prev []
  | prev, c :: rest => wbHit ci pat prev (c :: rest) || hasWB ci pat (some c) rest

/-- Fuel-indexed count of the anchored matches, modelling
`result.match(regex).length` (0 when the regex returns `null`). -/
def countFuel (ci : Bool) (pat : List Char) :
    Nat → Option Char → List Char → Nat
  | 0, _, _ => 0
  | _ + 1, prev, [] => if wbHit ci pat prev [] then 1 else 0
  | fuel + 1, prev, c :: rest =>
      if wbHit ci pat prev (c :: rest) then
        1 + countFuel ci pat fuel (((c :: rest).take pat.length).getLast?)
          ((c :: rest).drop pat.length)
      else countFuel ci pat fuel (some c) rest

/-- Number of anchored matches of `\b pat \b` in a whole text. -/
def countWB (ci : Bool) (pat t : List Char) : Nat :=
  countFuel ci pat t.length none t

/-! ## Tone lexicons and the tone stage -/

/-- The formal tone lexicon of `TONE_LEXICONS`, in object insertion order. -/
def formalLexicon : List (List Char × List Char) :=
  [("hi".toList, "greetings".toList), ("hey".toList, "hello".toList),
   ("yeah".toList, "yes".toList), ("nope".toList, "no".toList),
   ("gonna".toList, "going to".toList), ("wanna".toList, "want to".toList),
   ("kinda".toList, "kind of".toList), ("a lot".toList, "many".toList),
   ("really".toList, "very".toList), ("pretty".toList, "quite".toList)]

/-- The casual tone lexicon of `TONE_LEXICONS`. -/
def casualLexicon : List (List Char × List Char) :=
  [("greetings".toList, "hi".toList), ("hello".toList, "hey".toList),
   ("yes".toList, "yeah".toList), ("no".toList, "nope".toList),
   ("going to".toList, "gonna".toList), ("want to".toList, "wanna".toList),
   ("kind of".toList, "kinda".toList), ("very".toList, "really".toList),
   ("quite".toList, "pretty".toList)]

/-- The professional tone lexicon of `TONE_LEXICONS`. -/
def professionalLexicon : List (List Char × List Char) :=
  [("think".toList, "believe".toList), ("get".toList, "obtain".toList),
   ("make".toList, "create".toList), ("help".toList, "assist".toList),
   ("show".toList, "demonstrate".toList), ("tell".toList, "inform".toList)]

/-- Lexicon lookup `TONE_LEXICONS[tone.toLowerCase()]`. -/
def toneLexicon (tone : String) : Option (List (List Char × List Char)) :=
  if lowerL tone.toList = "formal".toList then some formalLexicon
  else if lowerL tone.toList = "casual".toList then some casualLexicon
  else if lowerL tone.toList = "professional".toList then some professionalLexicon
  else none

/-- Model of `applyToneTransform`: for each lexicon entry in order, count
the anchored case-insensitive matches in the current text and replace them
all; an unknown tone is a no-op with rule `tone_unchanged`. -/
def applyToneTransform (t : List Char) (tone : String) : StageResult :=
  match toneLexicon tone with
  | none => { text := t, rule := "tone_unchanged" }
  | some lex =>
      { text := (lex.foldl (fun (acc : List Char × Nat) pr =>
          (replaceWB true pr.1 pr.2 acc.1, acc.2 + countWB true pr.1 acc.1))
          (t, 0)).1,
        rule := "tone_" ++ tone ++ "_" ++
          toString (lex.foldl (fun (acc : List Char × Nat) pr =>
            (replaceWB true pr.1 pr.2 acc.1, acc.2 + countWB true pr.1 acc.1))
            (t, 0)).2 ++ "_swaps" }

/-! ## Style patterns and the style stage -/

/-- The filler words removed by the concise style, in source order. -/
def conciseFillers : List (List Char) :=
  ["actually".toList, "basically".toList, "literally".toList,
   "essentially".toList, "obviously".toList, "clearly".toList]

/-- Head-of-list whitespace test. -/
def headIsWs : List Char → Bool
  | [] => false
  | d :: _ => jsWs d

/-- Scanner for `result.replace(/\s{2,}/g, ' ')`.  The flag records whether
the scan is inside a whitespace run that has already been replaced by a
single space (whose remaining characters are dropped). -/
def collapseAux : List Char → Bool → List Char
  | [], _ => []
  | c :: rest, true =>
      if jsWs c then collapseAux rest true
      else c :: collapseAux rest false
  | c :: rest, false =>
      if jsWs c && headIsWs rest then ' ' :: collapseAux rest true
      else c :: collapseAux rest false

/-- Model of `result.replace(/\s{2,}/g, ' ')`: every maximal whitespace run
of length at least 2 becomes a single space; single whitespace characters
are kept as they are. -/
def collapseWs (t : List Char) : List Char := collapseAux t false

/-- Removal of trailing whitespace (the tail half of `String.trim`). -/
def dropTrailingWs : List Char → List Char
  | [] => []
  | c :: rest =>
      if (dropTrailingWs rest).isEmpty && jsWs c then []
      else c :: dropTrailingWs rest

/-- Model of `String.prototype.trim` (ASCII whitespace). -/
def trimWs (t : List Char) : List Char := dropTrailingWs (t.dropWhile jsWs)

/-- Model of `STYLE_PATTERNS.concise`: remove the six filler words
(word-boundary anchored, case-insensitive), collapse whitespace runs,
trim. -/
def conciseTransform (t : List Char) : List Char :=
  trimWs (collapseWs (conciseFillers.foldl (fun acc f => replaceWB true f [] acc) t))

/-- Model of `STYLE_PATTERNS.detailed` (case-sensitive `g` replacements,
applied in source order). -/
def detailedTransform (t : List Char) : List Char :=
  replaceWB false "can".toList "is able to".toList
    (replaceWB false "was".toList "was previously".toList
      (replaceWB false "is".toList "is currently".toList t))

/-- Model of `STYLE_PATTERNS.technical` (case-sensitive `g` replacements,
applied in source order). -/
def technicalTransform (t : List Char) : List Char :=
  replaceWB false "thing".toList "element".toList
    (replaceWB false "part".toList "component".toList
      (replaceWB false "use".toList "utilize".toList t))

/-- Model of `applyStyleTransform`: dispatch on `style.toLowerCase()`,
no-op with rule `style_unchanged` for unknown names. -/
def applyStyleTransform (t : List Char) (style : String) : StageResult :=
  if lowerL style.toList = "concise".toList then
    { text := conciseTransform t, rule := "style_" ++ style ++ "_applied" }
  else if lowerL style.toList = "detailed".toList then
    { text := detailedTransform t, rule := "style_" ++ style ++ "_applied" }
  else if lowerL style.toList = "technical".toList then
    { text := technicalTransform t, rule := "style_" ++ style ++ "_applied" }
  else { text := t, rule := "style_unchanged" }

/-! ## The transform pipeline (`performTransform`) -/

/-- The settings object of a transform request; `prompt` is ignored by the
pipeline and omitted. -/
structure Settings where
  lengthMode : Option LengthMode
  customLength : Option Nat
  tone : Option String
  style : Option String
  deriving Repr

/-- The empty settings object `{}`. -/
def emptySettings : Settings := ⟨none, none, none, none⟩

/-- Word count used by `calculateChangeRatio`: the token count of
`text.split(/\s+/)`.  JavaScript's split yields empty tokens at whitespace
edges and `[""]` on the empty string, so this count is always at least 1. -/
def wordCountSplit (t : List Char) : Nat := (jsSplitWs t).length

/-- Rounding to 2 decimal places, `Math.round(x * 100) / 100` with
`Math.round x = ⌊x + 1/2⌋`. -/
def round2 (q : ℚ) : ℚ := ((round (q * 100) : ℤ) : ℚ) / 100

/-- Model of `calculateChangeRatio` from `src/workers/transformWorker.ts`
(named `changeMetric` here): the absolute word-count difference divided by
the larger word count (0 if that maximum is 0), rounded to 2 decimals. -/
def changeMetric (original transformed : List Char) : ℚ :=
  round2 (if 0 < max ((wordCountSplit original : ℚ))
      ((wordCountSplit transformed : ℚ)) then
    |(wordCountSplit original : ℚ) - (wordCountSplit transformed : ℚ)| /
      max ((wordCountSplit original : ℚ)) ((wordCountSplit transformed : ℚ))
  else 0)

/-- A successful transform result: final text, rule trace, change metric
(the field the source calls `changeRatio`). -/
structure TransformOutcome where
  text : List Char
  rulesApplied : List String
  metric : ℚ
  deriving Repr

/-- Model of `performTransform`: apply the length, tone and style stages in
order, each only when its settings field is present (and, for the string
fields, non-empty — the JavaScript truthiness test `if (settings.tone)`),
then compute the change metric between the original and final text. -/
def performTransform (t : List Char) (s : Settings) : TransformOutcome :=
  let st1 : List Char × List String :=
    match s.lengthMode with
    | some m =>
        ((applyLengthTransform t m s.customLength).text,
         [(applyLengthTransform t m s.customLength).rule])
    | none => (t, [])
  let st2 : List Char × List String :=
    match s.tone with
    | some tone =>
        if tone = "" then st1
        else ((applyToneTransform st1.1 tone).text,
              st1.2 ++ [(applyToneTransform st1.1 tone).rule])
    | none => st1
  let st3 : List Char × List String :=
    match s.style with
    | some style =>
        if style = "" then st2
        else ((applyStyleTransform st2.1 style).text,
              st2.2 ++ [(applyStyleTransform st2.1 style).rule])
    | none => st2
  { text := st3.1, rulesApplied := st3.2, metric := changeMetric t st3.1 }

/-! ## CLAIM C1: the change metric -/

/-- The change-ratio formula exactly as CLAIM C1 words it: the absolute
word-count difference over the larger word count rounded to 2 decimals,
and 0 when both word counts are 0. -/
def claimChangeFormula (o tr : List Char) : ℚ :=
  if wordCountSplit o = 0 ∧ wordCountSplit tr = 0 then 0
  else round2 (|(wordCountSplit o : ℚ) - (wordCountSplit tr : ℚ)| /
    max ((wordCountSplit o : ℚ)) ((wordCountSplit tr : ℚ)))

theorem changeMetric_eq_claim (o tr : List Char) :
    changeMetric o tr = claimChangeFormula o tr := by
  have ho : 0 < wordCountSplit o := jsSplitWs_length_pos o
  have hmax : (0 : ℚ) < max ((wordCountSplit o : ℚ)) ((wordCountSplit tr : ℚ)) := by
    apply lt_max_of_lt_left
    exact_mod_cast ho
  unfold changeMetric claimChangeFormula
  rw [if_pos hmax, if_neg (by intro hc; omega)]

theorem round2_bounds (q : ℚ) (h0 : 0 ≤ q) (h1 : q ≤ 1) :
    0 ≤ round2 q ∧ round2 q ≤ 1 := by
  have hr0 : (0 : ℤ) ≤ round (q * 100) := by
    rw [round_eq]
    apply Int.floor_nonneg.2
    linarith
  have hr1 : round (q * 100) ≤ 100 := by
    rw [round_eq]
    have hfl : (⌊(q * 100 + 1 / 2 : ℚ)⌋ : ℤ) ≤ ⌊(100 + 1 / 2 : ℚ)⌋ :=
      Int.floor_le_floor (by linarith)
    have h100 : (⌊(100 + 1 / 2 : ℚ)⌋ : ℤ) = 100 := by
      apply Int.floor_eq_iff.2
      constructor <;> norm_num
    omega
  constructor
  · unfold round2
    apply div_nonneg _ (by norm_num)
    exact_mod_cast hr0
  · unfold round2
    rw [div_le_one (by norm_num)]
    exact_mod_cast hr1

theorem changeMetric_bounds (o tr : List Char) :
    0 ≤ changeMetric o tr ∧ changeMetric o tr ≤ 1 := by
  unfold changeMetric
  by_cases hmax : (0 : ℚ) < max ((wordCountSplit o : ℚ)) ((wordCountSplit tr : ℚ))
  · rw [if_pos hmax]
    have habs : |(wordCountSplit o : ℚ) - (wordCountSplit tr : ℚ)| ≤
        max ((wordCountSplit o : ℚ)) ((wordCountSplit tr : ℚ)) := by
      rcases le_total ((wordCountSplit o : ℚ)) ((wordCountSplit tr : ℚ)) with h | h
      · rw [abs_sub_comm, abs_of_nonneg (by linarith)]
        have hr := le_max_right ((wordCountSplit o : ℚ)) ((wordCountSplit tr : ℚ))
        have hb : (0 : ℚ) ≤ (wordCountSplit o : ℚ) := by positivity
        linarith
      · rw [abs_of_nonneg (by linarith)]
        have hl := le_max_left ((wordCountSplit o : ℚ)) ((wordCountSplit tr : ℚ))
        have hb : (0 : ℚ) ≤ (wordCountSplit tr : ℚ) := by positivity
        linarith
    apply round2_bounds
    · exact div_nonneg (abs_nonneg _) (le_of_lt hmax)
    · rw [div_le_one hmax]
      exact habs
  · rw [if_neg hmax]
    exact round2_bounds 0 (le_refl 0) (by norm_num)

theorem changeMetric_self (t : List Char) : changeMetric t t = 0 := by
  unfold changeMetric
  have ha : (0 : ℚ) < (wordCountSplit t : ℚ) := by
    exact_mod_cast jsSplitWs_length_pos t
  rw [if_pos (by simpa using ha)]
  simp [round2]

/-- CLAIM C1.  For every text and settings, the change metric of the
transform result (the field the source calls `changeRatio`) equals the
claimed formula — the absolute word-count difference over the larger word
count, rounded to 2 decimal places, and 0 if both word counts are 0 (a case
that never arises, JavaScript's split never yielding an empty token list);
it always lies in `[0, 1]`; and with empty settings it is 0. -/
theorem performTransform_metric (t : List Char) (s : Settings) :
    (performTransform t s).metric
        = claimChangeFormula t (performTransform t s).text ∧
    (0 ≤ (performTransform t s).metric ∧ (performTransform t s).metric ≤ 1) ∧
    (performTransform t emptySettings).metric = 0 := by
  refine ⟨?_, ?_, ?_⟩
  · exact changeMetric_eq_claim t (performTransform t s).text
  · exact changeMetric_bounds t (performTransform t s).text
  · exact changeMetric_self t

/-! ## CLAIM C6: word-boundary anchoring of the tone stage -/

theorem replFuel_id (ci : Bool) (pat rep : List Char) :
    ∀ (fuel : Nat) (s : List Char) (prev : Option Char), s.length ≤ fuel →
      hasWB ci pat prev s = false → replFuel ci pat rep fuel prev s = s := by
  intro fuel
  induction fuel with
  | zero =>
      intro s prev _ _
      rfl
  | succ n ih =>
      intro s prev hle hno
      cases s with
      | nil => rfl
      | cons c rest =>
          have hno' : wbHit ci pat prev (c :: rest) = false ∧
              hasWB ci pat (some c) rest = false := by
            simpa [hasWB] using hno
          simp only [replFuel]
          rw [if_neg (by simp [hno'.1])]
          rw [ih rest (some c)
            (by simp only [List.length_cons] at hle; omega) hno'.2]

/-- CLAIM C6.  The tone stage's replacement primitive rewrites only
word-boundary anchored (case-insensitive) occurrences of the phrase key: a
text with no anchored occurrence is returned unchanged — in particular the
formal lexicon leaves `"hiking"` untouched even though it contains `"hi"` —
while standalone occurrences of `"hi"` of any capitalization are replaced. -/
theorem toneWholeWord :
    (∀ (ci : Bool) (pat rep t : List Char),
        hasWB ci pat none t = false → replaceWB ci pat rep t = t) ∧
    (applyToneTransform "hiking".toList "formal").text = "hiking".toList ∧
    (applyToneTransform "Hi there, HI!".toList "formal").text =
      "greetings there, greetings!".toList := by
  refine ⟨?_, by decide, by decide⟩
  intro ci pat rep t hno
  exact replFuel_id ci pat rep t.length t none (le_refl _) hno

/-- Witness for C6: `"hiking"` has no anchored occurrence of `"hi"`, so the
replacement leaves it unchanged. -/
theorem toneWholeWord_witness :
    hasWB true "hi".toList none "hiking".toList = false ∧
    replaceWB true "hi".toList "greetings".toList "hiking".toList =
      "hiking".toList :=
  ⟨by decide, toneWholeWord.1 true "hi".toList "greetings".toList
    "hiking".toList (by decide)⟩

/-! ## Readability scoring (`calculateReadabilityScore`, `countSyllables`) -/

/-- Lower-case ASCII letter test, the class `[a-z]` of the cleaning regex
`replace(/[^a-z]/g, '')`. -/
def isLowerAlpha (c : Char) : Bool := 'a' ≤ c && c ≤ 'z'

/-- The vowel class `[aeiouy]` of the syllable heuristic. -/
def isVowelY (c : Char) : Bool :=
  c = 'a' || c = 'e' || c = 'i' || c = 'o' || c = 'u' || c = 'y'

/-- Number of maximal vowel runs: the match count of `/[aeiouy]+/g`.  The
flag records whether the scan is inside a vowel run. -/
def vowelGroups : List Char → Bool → Nat
  | [], _ => 0
  | c :: rest, inV =>
      if isVowelY c then
        (if inV then vowelGroups rest true else 1 + vowelGroups rest true)
      else vowelGroups rest false

/-- The trailing-letter adjustments and final floor of the syllable
heuristic: subtract 1 for a trailing `e`, add 1 for a trailing `le` with
length over 2, floor the result at 1. -/
def syllableAdjust (cleaned : List Char) (base : ℤ) : ℤ :=
  max 1 ((if cleaned.reverse.take 2 = ['e', 'l'] ∧ 2 < cleaned.length
    then (if cleaned.getLast? = some 'e' then base - 1 else base) + 1
    else (if cleaned.getLast? = some 'e' then base - 1 else base)))

/-- Model of `countSyllables` from `src/workers/nlpWorker.ts`: lower-case,
keep letters only, return 1 for tokens of at most 3 letters; otherwise
count vowel groups (`vowels ? vowels.length : 1`, i.e. 1 when there are
none), then apply the trailing-letter adjustments and floor at 1. -/
def countSyllables (w : List Char) : Nat :=
  if ((lowerL w).filter isLowerAlpha).length ≤ 3 then 1
  else (syllableAdjust ((lowerL w).filter isLowerAlpha)
    (if vowelGroups ((lowerL w).filter isLowerAlpha) false = 0 then 1
     else (vowelGroups ((lowerL w).filter isLowerAlpha) false : ℤ))).toNat

/-- Syllable count exactly as CLAIM C2 words the heuristic, with no special
case for short tokens: vowel-group clusters with minimum 1, −1 for a
trailing `e`, +1 for a trailing `le` with length > 2, floored at 1. -/
def claimSyllables (w : List Char) : Nat :=
  (syllableAdjust ((lowerL w).filter isLowerAlpha)
    (max 1 ((vowelGroups ((lowerL w).filter isLowerAlpha) false : ℤ)))).toNat

/-- Syllable count as C2 must be amended: the claim's heuristic applies
only to tokens of more than 3 letters after cleaning; shorter tokens count
exactly 1 syllable. -/
def amendedSyllables (w : List Char) : Nat :=
  if ((lowerL w).filter isLowerAlpha).length ≤ 3 then 1
  else (syllableAdjust ((lowerL w).filter isLowerAlpha)
    (max 1 ((vowelGroups ((lowerL w).filter isLowerAlpha) false : ℤ)))).toNat

/-- The Flesch Reading Ease approximation used by the score. -/
def fleschFormula (wordsLen sentsLen syll : Nat) : ℚ :=
  206.835 - 1.015 * ((wordsLen : ℚ) / (sentsLen : ℚ))
    - 84.6 * ((syll : ℚ) / (wordsLen : ℚ))

/-- Model of `calculateReadabilityScore` from `src/workers/nlpWorker.ts`:
0 when there are no sentences or no words, otherwise the Flesch formula
rounded to the nearest integer and clamped to `[0, 100]` (the code rounds
first and clamps after). -/
def calculateReadabilityScore (t : List Char) : ℤ :=
  let sents := sentencesOf t
  let words := jsSplitWs t
  let syll := (words.map countSyllables).sum
  if sents.length = 0 ∨ words.length = 0 then 0
  else max 0 (min 100 (round (fleschFormula words.length sents.length syll)))

/-- Readability score exactly as CLAIM C2 words it: the Flesch formula with
the claim's syllable heuristic, clamped to `[0, 100]` and rounded to the
nearest integer, 0 when there are no sentences or no words. -/
def claimReadability (t : List Char) : ℤ :=
  let sents := sentencesOf t
  let words := jsSplitWs t
  let syll := (words.map claimSyllables).sum
  if sents.length = 0 ∨ words.length = 0 then 0
  else round (min 100 (max 0 (fleschFormula words.length sents.length syll)))

/-- Readability score as C2 must be amended: the claim's formula with the
amended syllable heuristic (tokens of at most 3 cleaned letters count 1). -/
def amendedReadability (t : List Char) : ℤ :=
  let sents := sentencesOf t
  let words := jsSplitWs t
  let syll := (words.map amendedSyllables).sum
  if sents.length = 0 ∨ words.length = 0 then 0
  else round (min 100 (max 0 (fleschFormula words.length sents.length syll)))

/-- Model of the `score` field computed by `performAnalyze` in
`src/workers/transformWorker.ts` (the transform worker's analyze path):
`Math.min(100, Math.round(avgWordsPerSentence * 10))` over the
length-filtered word list — not a Flesch score. -/
def analyzeScoreTW (t : List Char) : ℤ :=
  let words := (jsSplitWs ((lowerL t).filter (fun c => isWordChar c || jsWs c))).filter
    (fun w => 3 < w.length)
  let sents := sentencesOf t
  let avg : ℚ := if 0 < sents.length then (words.length : ℚ) / (sents.length : ℚ) else 0
  min 100 (round (avg * 10))

/-! ## Keyword extraction (`extractKeywords`) -/

/-- The fixed stop-word set of `src/workers/nlpWorker.ts`. -/
def STOPWORDS : List (List Char) :=
  ["the", "be", "to", "of", "and", "a", "in", "that", "have", "i",
   "it", "for", "not", "on", "with", "he", "as", "you", "do", "at",
   "this", "but", "his", "by", "from", "they", "we", "say", "her", "she",
   "or", "an", "will", "my", "one", "all", "would", "there", "their",
   "what"].map String.toList

/-- Tokenization of `extractKeywords`: lower-case, strip characters that
are neither word nor whitespace, split on whitespace, keep tokens of length
over 3 that are not stop words. -/
def keywordTokens (t : List Char) : List (List Char) :=
  (jsSplitWs ((lowerL t).filter (fun c => isWordChar c || jsWs c))).filter
    (fun w => 3 < w.length && !(STOPWORDS.contains w))

/-- One `freq[w] = (freq[w] || 0) + 1` update on the association-list model
of the frequency object: an existing key is bumped in place, a new key is
appended (JavaScript string keys keep insertion order). -/
def bumpFreq : List (List Char × Nat) → List Char → List (List Char × Nat)
  | [], w => [(w, 1)]
  | (k, v) :: rest, w =>
      if k = w then (k, v + 1) :: rest else (k, v) :: bumpFreq rest w

/-- The frequency object built by the `forEach` loop. -/
def buildFreq (ws : List (List Char)) : List (List Char × Nat) :=
  ws.foldl bumpFreq []

/-- Numeric value of a digit string. -/
def natOfDigits (w : List Char) : Nat :=
  w.foldl (fun n c => n * 10 + (c.toNat - '0'.toNat)) 0

/-- Whether a token is a canonical array-index property key in JavaScript:
a decimal numeral without a leading zero (except `"0"` itself) whose value
is below `2^32 - 1`.  `Object.entries` enumerates such keys before all
others, in ascending numeric order. -/
def isArrayIndexKey (w : List Char) : Bool :=
  match w with
  | [] => false
  | ['0'] => true
  | c :: _ =>
      (c != '0') && w.all (fun d => '0' ≤ d && d ≤ '9') &&
        decide (natOfDigits w < 4294967295)

/-- Stable ascending insertion by numeric key value (array-index keys in an
object are pairwise distinct, so ties do not arise). -/
def insertByVal (e : List Char × Nat) :
    List (List Char × Nat) → List (List Char × Nat)
  | [] => [e]
  | f :: fs =>
      if natOfDigits f.1 ≤ natOfDigits e.1 then f :: insertByVal e fs
      else e :: f :: fs

/-- The enumeration order of `Object.entries(freq)`: array-index keys first
in ascending numeric order, then the remaining keys in insertion order. -/
def entriesOrder (m : List (List Char × Nat)) : List (List Char × Nat) :=
  ((m.filter (fun e => isArrayIndexKey e.1)).foldl
      (fun acc e => insertByVal e acc) [])
    ++ m.filter (fun e => !(isArrayIndexKey e.1))

/-- Stable insertion for the descending-by-count sort: the new entry goes
after all entries with a count at least its own, the unique result of the
stable `Array.prototype.sort` with comparator `(a, b) => b[1] - a[1]`. -/
def insertByCountDesc (e : List Char × Nat) :
    List (List Char × Nat) → List (List Char × Nat)
  | [] => [e]
  | f :: fs =>
      if e.2 ≤ f.2 then f :: insertByCountDesc e fs
      else e :: f :: fs

/-- Stable sort by strictly descending count. -/
def sortByCountDesc (l : List (List Char × Nat)) : List (List Char × Nat) :=
  l.foldl (fun acc e => insertByCountDesc e acc) []

/-- Model of `extractKeywords` from `src/workers/nlpWorker.ts`: tokenize,
build the frequency object, enumerate its entries in JavaScript object key
order, stable-sort by descending count, take the first `maxKeywords` keys. -/
def extractKeywords (t : List Char) (maxKeywords : Nat) : List (List Char) :=
  ((sortByCountDesc (entriesOrder (buildFreq (keywordTokens t)))).take
    maxKeywords).map Prod.fst

/-- Distinct elements in first-occurrence order (`seen` accumulates the
elements already kept). -/
def firstOccsAux (seen : List (List Char)) :
    List (List Char) → List (List Char)
  | [] => []
  | w :: ws =>
      if w ∈ seen then firstOccsAux seen ws
      else w :: firstOccsAux (w :: seen) ws

/-- Keyword list exactly as CLAIM C3 words it: distinct tokens ordered by
descending frequency with ties broken purely by first-occurrence order. -/
def claimKeywords (t : List Char) (maxKeywords : Nat) : List (List Char) :=
  ((sortByCountDesc ((firstOccsAux [] (keywordTokens t)).map
      (fun w => (w, (keywordTokens t).count w)))).take maxKeywords).map
    Prod.fst

/-- Keyword list as C3 must be amended: as the claim says, except that the
tie-break follows the frequency object's enumeration order — array-index
numeral tokens first in ascending numeric order, the remaining tokens in
first-occurrence order. -/
def amendedKeywords (t : List Char) (maxKeywords : Nat) : List (List Char) :=
  ((sortByCountDesc (entriesOrder ((firstOccsAux [] (keywordTokens t)).map
      (fun w => (w, (keywordTokens t).count w))))).take maxKeywords).map
    Prod.fst

/-! ## CLAIM C2: readability -/

theorem round_mono_q {a b : ℚ} (h : a ≤ b) : round a ≤ round b := by
  rw [round_eq, round_eq]
  exact Int.floor_le_floor (by linarith)

theorem round_hundred_q : round ((100 : ℚ)) = 100 := by
  rw [show (100 : ℚ) = ((100 : ℤ) : ℚ) by norm_num, round_intCast]

/-- Rounding then clamping to `[0, 100]` (the code's order) agrees with
clamping then rounding (the claim's order). -/
theorem roundClampComm (x : ℚ) :
    max 0 (min 100 (round x)) = round (min 100 (max 0 x)) := by
  rcases le_total x 0 with h | h
  · have hr : round x ≤ 0 := by
      have hm := round_mono_q h
      simpa using hm
    rw [max_eq_left h, min_eq_right (by norm_num : (0 : ℚ) ≤ 100)]
    rw [min_eq_right (by omega : round x ≤ (100 : ℤ))]
    rw [max_eq_left hr]
    simp
  · rcases le_total 100 x with h2 | h2
    · have hr : (100 : ℤ) ≤ round x := by
        have hm := round_mono_q h2
        rwa [round_hundred_q] at hm
      rw [max_eq_right h, min_eq_left h2]
      rw [min_eq_left hr, max_eq_right (by omega : (0 : ℤ) ≤ 100)]
      rw [round_hundred_q]
    · have hr0 : (0 : ℤ) ≤ round x := by
        have hm := round_mono_q h
        simpa using hm
      have hr1 : round x ≤ 100 := by
        have hm := round_mono_q h2
        rwa [round_hundred_q] at hm
      rw [max_eq_right h, min_eq_right h2]
      rw [min_eq_right hr1, max_eq_right hr0]

theorem countSyllables_eq_amended (w : List Char) :
    countSyllables w = amendedSyllables w := by
  unfold countSyllables amendedSyllables
  by_cases h : ((lowerL w).filter isLowerAlpha).length ≤ 3
  · rw [if_pos h, if_pos h]
  · rw [if_neg h, if_neg h]
    have hbase : (if vowelGroups ((lowerL w).filter isLowerAlpha) false = 0
        then (1 : ℤ)
        else ((vowelGroups ((lowerL w).filter isLowerAlpha) false : ℤ)))
        = max 1 ((vowelGroups ((lowerL w).filter isLowerAlpha) false : ℤ)) := by
      cases hgv : vowelGroups ((lowerL w).filter isLowerAlpha) false with
      | zero => simp
      | succ n =>
          rw [if_neg (Nat.succ_ne_zero n)]
          rw [max_eq_right (by exact_mod_cast Nat.succ_le_succ (Nat.zero_le n))]
    rw [hbase]

/-- CLAIM C2 (amended).  The NLP worker's readability score equals the
approximate Flesch Reading Ease formula clamped to `[0, 100]` and rounded
to the nearest integer, with syllables counted by the claim's vowel-group
heuristic amended so that tokens of at most 3 letters (after cleaning)
count exactly 1 syllable; and the zero-score guard is dead code, since the
sentence and word lists are never empty (so the claim's "0 if there are no
sentences or no words" holds vacuously).  The transform worker's analyze
path computes a different score, `min(100, round(10 × words/sentences))`
(see `analyzeScoreTW` and the counterexample). -/
theorem readability_amended (t : List Char) :
    calculateReadabilityScore t = amendedReadability t ∧
    1 ≤ (sentencesOf t).length ∧ 1 ≤ (jsSplitWs t).length := by
  refine ⟨?_, sentencesOf_length_pos t, jsSplitWs_length_pos t⟩
  have hfun : countSyllables = amendedSyllables := funext countSyllables_eq_amended
  simp only [calculateReadabilityScore, amendedReadability]
  rw [hfun]
  by_cases hc : (sentencesOf t).length = 0 ∨ (jsSplitWs t).length = 0
  · rw [if_pos hc, if_pos hc]
  · rw [if_neg hc, if_neg hc]
    exact roundClampComm _

/-- Counterexample to CLAIM C2 as stated.  On `"aba."` the code's
readability score is 100 while the claim's heuristic (no short-token
shortcut, so `"aba"` counts 2 syllables) gives 37; and on
`"Hello world."` the transform worker's analyze path scores 20 while the
claim's Flesch formula gives 78. -/
theorem readability_counterexample :
    calculateReadabilityScore "aba.".toList = 100 ∧
    claimReadability "aba.".toList = 37 ∧
    analyzeScoreTW "Hello world.".toList = 20 ∧
    claimReadability "Hello world.".toList = 78 := by
  have round121 : round ((6061 : ℚ)/50) = 121 := by
    rw [round_eq]
    apply Int.floor_eq_iff.2
    constructor <;> norm_num
  have round37 : round ((1831 : ℚ)/50) = 37 := by
    rw [round_eq]
    apply Int.floor_eq_iff.2
    constructor <;> norm_num
  have round78 : round ((15581 : ℚ)/200) = 78 := by
    rw [round_eq]
    apply Int.floor_eq_iff.2
    constructor <;> norm_num
  have round20 : round ((20 : ℚ)) = 20 := by
    rw [show (20 : ℚ) = ((20 : ℤ) : ℚ) by norm_num, round_intCast]
  refine ⟨?_, ?_, ?_, ?_⟩
  · have h1 : (sentencesOf "aba.".toList).length = 1 := by decide
    have h2 : (jsSplitWs "aba.".toList).length = 1 := by decide
    have h3 : ((jsSplitWs "aba.".toList).map countSyllables).sum = 1 := by decide
    simp only [calculateReadabilityScore, h1, h2, h3]
    rw [if_neg (by norm_num)]
    rw [show fleschFormula 1 1 1 = (6061 : ℚ)/50 by unfold fleschFormula; norm_num]
    rw [round121]
    norm_num [min_def, max_def]
  · have h1 : (sentencesOf "aba.".toList).length = 1 := by decide
    have h2 : (jsSplitWs "aba.".toList).length = 1 := by decide
    have h3 : ((jsSplitWs "aba.".toList).map claimSyllables).sum = 2 := by decide
    simp only [claimReadability, h1, h2, h3]
    rw [if_neg (by norm_num)]
    rw [show fleschFormula 1 1 2 = (1831 : ℚ)/50 by unfold fleschFormula; norm_num]
    rw [max_eq_right (by norm_num : (0 : ℚ) ≤ (1831 : ℚ)/50)]
    rw [min_eq_right (by norm_num : (1831 : ℚ)/50 ≤ 100)]
    exact round37
  · have h4 : ((jsSplitWs ((lowerL "Hello world.".toList).filter
        (fun c => isWordChar c || jsWs c))).filter
        (fun w => 3 < w.length)).length = 2 := by decide
    have h5 : (sentencesOf "Hello world.".toList).length = 1 := by decide
    simp only [analyzeScoreTW, h4, h5]
    rw [if_pos (by norm_num)]
    rw [show ((2 : ℕ) : ℚ) / ((1 : ℕ) : ℚ) * 10 = (20 : ℚ) by norm_num]
    rw [round20]
    norm_num [min_def]
  · have h1 : (sentencesOf "Hello world.".toList).length = 1 := by decide
    have h2 : (jsSplitWs "Hello world.".toList).length = 2 := by decide
    have h3 : ((jsSplitWs "Hello world.".toList).map claimSyllables).sum = 3 := by
      decide
    simp only [claimReadability, h1, h2, h3]
    rw [if_neg (by norm_num)]
    rw [show fleschFormula 2 1 3 = (15581 : ℚ)/200 by unfold fleschFormula; norm_num]
    rw [max_eq_right (by norm_num : (0 : ℚ) ≤ (15581 : ℚ)/200)]
    rw [min_eq_right (by norm_num : (15581 : ℚ)/200 ≤ 100)]
    exact round78

/-! ## CLAIM C3: keyword extraction -/

theorem firstOccsAux_not_mem_seen :
    ∀ (l seen : List (List Char)) (w : List Char),
      w ∈ firstOccsAux seen l → w ∉ seen := by
  intro l
  induction l with
  | nil =>
      intro seen w hw
      simp [firstOccsAux] at hw
  | cons x xs ih =>
      intro seen w hw
      by_cases hx : x ∈ seen
      · simp only [firstOccsAux, if_pos hx] at hw
        exact ih seen w hw
      · simp only [firstOccsAux, if_neg hx] at hw
        rcases List.mem_cons.1 hw with h | h
        · subst h
          exact hx
        · intro hmem
          exact ih (x :: seen) w h (List.mem_cons_of_mem x hmem)

theorem firstOccsAux_congr :
    ∀ (l s₁ s₂ : List (List Char)), (∀ x, x ∈ s₁ ↔ x ∈ s₂) →
      firstOccsAux s₁ l = firstOccsAux s₂ l := by
  intro l
  induction l with
  | nil => intro s₁ s₂ _; rfl
  | cons x xs ih =>
      intro s₁ s₂ h
      by_cases hx : x ∈ s₁
      · simp only [firstOccsAux, if_pos hx, if_pos ((h x).1 hx)]
        exact ih s₁ s₂ h
      · simp only [firstOccsAux, if_neg hx, if_neg (fun hh => hx ((h x).2 hh))]
        congr 1
        apply ih
        intro y
        simp only [List.mem_cons]
        constructor
        · intro hy
          rcases hy with hy | hy
          · exact Or.inl hy
          · exact Or.inr ((h y).1 hy)
        · intro hy
          rcases hy with hy | hy
          · exact Or.inl hy
          · exact Or.inr ((h y).2 hy)

theorem firstOccsAux_nodup :
    ∀ (l seen : List (List Char)), (firstOccsAux seen l).Nodup := by
  intro l
  induction l with
  | nil => intro seen; simp [firstOccsAux]
  | cons x xs ih =>
      intro seen
      by_cases hx : x ∈ seen
      · simp only [firstOccsAux, if_pos hx]
        exact ih seen
      · simp only [firstOccsAux, if_neg hx]
        refine List.nodup_cons.2 ⟨?_, ih (x :: seen)⟩
        intro hmem
        exact firstOccsAux_not_mem_seen xs (x :: seen) x hmem (by simp)

theorem firstOccsAux_subset :
    ∀ (l seen : List (List Char)) (w : List Char),
      w ∈ firstOccsAux seen l → w ∈ l := by
  intro l
  induction l with
  | nil =>
      intro seen w hw
      simp [firstOccsAux] at hw
  | cons x xs ih =>
      intro seen w hw
      by_cases hx : x ∈ seen
      · simp only [firstOccsAux, if_pos hx] at hw
        exact List.mem_cons_of_mem x (ih seen w hw)
      · simp only [firstOccsAux, if_neg hx] at hw
        rcases List.mem_cons.1 hw with h | h
        · simp [h]
        · exact List.mem_cons_of_mem x (ih (x :: seen) w h)

theorem bumpFreq_not_mem (m : List (List Char × Nat)) (w : List Char)
    (h : ∀ e ∈ m, e.1 ≠ w) : bumpFreq m w = m ++ [(w, 1)] := by
  induction m with
  | nil => rfl
  | cons e rest ih =>
      obtain ⟨k, v⟩ := e
      have hk : k ≠ w := h (k, v) (by simp)
      simp only [bumpFreq, if_neg hk]
      rw [ih (fun f hf => h f (by simp [hf]))]
      simp

theorem bumpFreq_mem (m : List (List Char × Nat)) (w : List Char)
    (hnd : (m.map Prod.fst).Nodup) (hw : w ∈ m.map Prod.fst) :
    bumpFreq m w = m.map (fun e => (e.1, if e.1 = w then e.2 + 1 else e.2)) := by
  induction m with
  | nil => simp at hw
  | cons e rest ih =>
      obtain ⟨k, v⟩ := e
      simp only [List.map_cons, List.nodup_cons] at hnd
      by_cases hk : k = w
      · subst hk
        have hmap : rest.map (fun e : List Char × Nat =>
            (e.1, if e.1 = k then e.2 + 1 else e.2)) = rest := by
          have hid : ∀ e ∈ rest,
              (fun e : List Char × Nat =>
                (e.1, if e.1 = k then e.2 + 1 else e.2)) e = id e := by
            intro e he
            have hne : e.1 ≠ k := by
              intro heq
              exact hnd.1 (heq ▸ List.mem_map_of_mem Prod.fst he)
            simp [hne]
          rw [List.map_congr_left hid, List.map_id]
        simp only [bumpFreq, List.map_cons, hmap]
        simp
      · have hw' : w ∈ rest.map Prod.fst := by
          simp only [List.map_cons, List.mem_cons] at hw
          rcases hw with hw | hw
          · exact absurd hw.symm hk
          · exact hw
        simp only [bumpFreq, if_neg hk, List.map_cons]
        rw [ih hnd.2 hw']

theorem bumpFreq_foldl (ws : List (List Char)) :
    ∀ m : List (List Char × Nat), (m.map Prod.fst).Nodup →
      ws.foldl bumpFreq m
        = m.map (fun e => (e.1, e.2 + ws.count e.1))
          ++ (firstOccsAux (m.map Prod.fst) ws).map
              (fun w => (w, ws.count w)) := by
  induction ws with
  | nil =>
      intro m _
      simp [firstOccsAux]
  | cons w ws' ih =>
      intro m hnd
      simp only [List.foldl_cons]
      by_cases hw : w ∈ m.map Prod.fst
      · rw [bumpFreq_mem m w hnd hw]
        have hkeys : (m.map (fun e : List Char × Nat =>
            (e.1, if e.1 = w then e.2 + 1 else e.2))).map Prod.fst
            = m.map Prod.fst := by
          rw [List.map_map]
          rfl
        rw [ih _ (by rw [hkeys]; exact hnd), hkeys]
        rw [show firstOccsAux (m.map Prod.fst) (w :: ws')
            = firstOccsAux (m.map Prod.fst) ws' by
          simp [firstOccsAux, hw]]
        congr 1
        · rw [List.map_map]
          apply List.map_congr_left
          intro e _
          simp only [Function.comp_apply, List.count_cons, Prod.mk.injEq]
          refine ⟨trivial, ?_⟩
          split_ifs with h1 h2 h2
          · omega
          · exact absurd (by simp [h1]) h2
          · exact absurd (beq_iff_eq.1 h2).symm h1
          · omega
        · apply List.map_congr_left
          intro v hv
          have hvw : v ≠ w := by
            intro heq
            exact (firstOccsAux_not_mem_seen ws' (m.map Prod.fst) v hv)
              (heq ▸ hw)
          rw [List.count_cons]
          have hbe : (w == v) = false := by
            simp only [beq_eq_false_iff_ne, ne_eq]
            exact fun hh => hvw hh.symm
          simp [hbe]
      · have hkeysne : ∀ e ∈ m, e.1 ≠ w := by
          intro e he heq
          exact hw (heq ▸ List.mem_map_of_mem Prod.fst he)
        rw [bumpFreq_not_mem m w hkeysne]
        have hnd' : ((m ++ [(w, 1)]).map Prod.fst).Nodup := by
          simp only [List.map_append, List.map_cons, List.map_nil]
          refine List.Nodup.append hnd (List.nodup_singleton w) ?_
          rw [List.disjoint_singleton]
          exact hw
        rw [ih _ hnd']
        rw [show firstOccsAux (m.map Prod.fst) (w :: ws')
            = w :: firstOccsAux (w :: m.map Prod.fst) ws' by
          simp [firstOccsAux, hw]]
        simp only [List.map_append, List.map_cons, List.map_nil]
        rw [firstOccsAux_congr ws' (m.map Prod.fst ++ [w]) (w :: m.map Prod.fst)
          (by intro x
              simp only [List.mem_append, List.mem_singleton, List.mem_cons,
                List.not_mem_nil, or_false]
              exact or_comm)]
        rw [List.append_assoc, List.singleton_append]
        congr 1
        · apply List.map_congr_left
          intro e he
          rw [List.count_cons]
          have hbe : (w == e.1) = false := by
            simp only [beq_eq_false_iff_ne, ne_eq]
            exact fun hh => hkeysne e he hh.symm
          simp [hbe]
        · congr 1
          · have hcw : (w :: ws').count w = ws'.count w + 1 := by
              simp [List.count_cons]
            rw [hcw]
            congr 1
            omega
          · apply List.map_congr_left
            intro v hv
            have hvw : v ≠ w := by
              intro heq
              have := firstOccsAux_not_mem_seen ws' (w :: m.map Prod.fst) v hv
              exact this (by simp [heq])
            rw [List.count_cons]
            have hbe : (w == v) = false := by
              simp only [beq_eq_false_iff_ne, ne_eq]
              exact fun hh => hvw hh.symm
            simp [hbe]

theorem buildFreq_firstOccs (ws : List (List Char)) :
    buildFreq ws
      = (firstOccsAux [] ws).map (fun w => (w, ws.count w)) := by
  have h := bumpFreq_foldl ws [] (by simp)
  simpa [buildFreq] using h

theorem insertByCountDesc_perm (e : List Char × Nat)
    (l : List (List Char × Nat)) :
    List.Perm (insertByCountDesc e l) (e :: l) := by
  induction l with
  | nil => exact List.Perm.refl _
  | cons f fs ih =>
      by_cases h : e.2 ≤ f.2
      · simp only [insertByCountDesc, if_pos h]
        exact (ih.cons f).trans (List.Perm.swap e f fs)
      · simp only [insertByCountDesc, if_neg h]
        exact List.Perm.refl _

theorem sortByCountDesc_perm_aux :
    ∀ (l acc : List (List Char × Nat)),
      List.Perm (l.foldl (fun acc e => insertByCountDesc e acc) acc)
        (acc ++ l) := by
  intro l
  induction l with
  | nil => intro acc; simp
  | cons e fs ih =>
      intro acc
      simp only [List.foldl_cons]
      have h1 := ih (insertByCountDesc e acc)
      have h2 : List.Perm (insertByCountDesc e acc ++ fs) ((e :: acc) ++ fs) :=
        (insertByCountDesc_perm e acc).append_right fs
      exact (h1.trans h2).trans List.perm_middle.symm

theorem sortByCountDesc_perm (l : List (List Char × Nat)) :
    List.Perm (sortByCountDesc l) l := by
  have h := sortByCountDesc_perm_aux l []
  simpa [sortByCountDesc] using h

theorem insertByVal_perm (e : List Char × Nat) (l : List (List Char × Nat)) :
    List.Perm (insertByVal e l) (e :: l) := by
  induction l with
  | nil => exact List.Perm.refl _
  | cons f fs ih =>
      by_cases h : natOfDigits f.1 ≤ natOfDigits e.1
      · simp only [insertByVal, if_pos h]
        exact (ih.cons f).trans (List.Perm.swap e f fs)
      · simp only [insertByVal, if_neg h]
        exact List.Perm.refl _

theorem sortByVal_perm_aux :
    ∀ (l acc : List (List Char × Nat)),
      List.Perm (l.foldl (fun acc e => insertByVal e acc) acc) (acc ++ l) := by
  intro l
  induction l with
  | nil => intro acc; simp
  | cons e fs ih =>
      intro acc
      simp only [List.foldl_cons]
      have h1 := ih (insertByVal e acc)
      have h2 : List.Perm (insertByVal e acc ++ fs) ((e :: acc) ++ fs) :=
        (insertByVal_perm e acc).append_right fs
      exact (h1.trans h2).trans List.perm_middle.symm

theorem entriesOrder_perm (m : List (List Char × Nat)) :
    List.Perm (entriesOrder m) m := by
  unfold entriesOrder
  have h1 : List.Perm ((m.filter (fun e => isArrayIndexKey e.1)).foldl
      (fun acc e => insertByVal e acc) [])
      (m.filter (fun e => isArrayIndexKey e.1)) := by
    have h := sortByVal_perm_aux (m.filter (fun e => isArrayIndexKey e.1)) []
    simpa using h
  have h2 := h1.append_right (m.filter (fun e => !(isArrayIndexKey e.1)))
  exact h2.trans (List.filter_append_perm _ m)

/-- Tokenization of the keyword block of `performAnalyze` in
`transformWorker.ts` (lines 269-283): lower-case, strip characters that are
neither word nor whitespace, split on whitespace, keep tokens of length
greater than 3.  Unlike `extractKeywords` in `nlpWorker.ts`, this path
applies no stop-word filter. -/
def analyzeKeywordTokens (t : List Char) : List (List Char) :=
  (jsSplitWs ((lowerL t).filter (fun c => isWordChar c || jsWs c))).filter
    (fun w => 3 < w.length)

/-- Model of the keyword computation of `performAnalyze` in
`transformWorker.ts`: build the frequency object over the length-filtered
tokens, enumerate its entries in JavaScript object key order, stable-sort by
descending count, take the first 10 keys. -/
def analyzeKeywordsTW (t : List Char) : List (List Char) :=
  ((sortByCountDesc (entriesOrder (buildFreq (analyzeKeywordTokens t)))).take
    10).map Prod.fst

/-- The transform worker's keyword list as C3 must be amended for that
path: distinct tokens by descending frequency, tie-break by the frequency
object's enumeration order, with no stop-word filter. -/
def amendedKeywordsTW (t : List Char) : List (List Char) :=
  ((sortByCountDesc (entriesOrder ((firstOccsAux []
      (analyzeKeywordTokens t)).map
      (fun w => (w, (analyzeKeywordTokens t).count w))))).take 10).map
    Prod.fst

theorem keywordsPipeline_spec (ws : List (List Char)) (K : Nat) :
    ((sortByCountDesc (entriesOrder (buildFreq ws))).take K).map Prod.fst
      = ((sortByCountDesc (entriesOrder ((firstOccsAux [] ws).map
          (fun w => (w, ws.count w))))).take K).map Prod.fst ∧
    (((sortByCountDesc (entriesOrder (buildFreq ws))).take K).map
        Prod.fst).length ≤ K ∧
    (((sortByCountDesc (entriesOrder (buildFreq ws))).take K).map
        Prod.fst).Nodup ∧
    ∀ w ∈ ((sortByCountDesc (entriesOrder (buildFreq ws))).take K).map
        Prod.fst, w ∈ ws := by
  have hb := buildFreq_firstOccs ws
  have hperm : List.Perm
      ((sortByCountDesc (entriesOrder (buildFreq ws))).map Prod.fst)
      (firstOccsAux [] ws) := by
    have hp := (sortByCountDesc_perm (entriesOrder (buildFreq ws))).trans
      (entriesOrder_perm (buildFreq ws))
    have hmap := hp.map Prod.fst
    have hr : (buildFreq ws).map Prod.fst = firstOccsAux [] ws := by
      rw [hb, List.map_map]
      rw [show (Prod.fst ∘ fun w : List Char => (w, ws.count w))
          = id from rfl]
      exact List.map_id _
    rw [hr] at hmap
    exact hmap
  have hnodup : ((sortByCountDesc (entriesOrder
      (buildFreq ws))).map Prod.fst).Nodup :=
    hperm.symm.nodup (firstOccsAux_nodup ws [])
  refine ⟨?_, ?_, ?_, ?_⟩
  · rw [hb]
  · rw [List.length_map, List.length_take]
    exact min_le_left _ _
  · rw [List.map_take]
    exact List.Nodup.sublist (List.take_sublist _ _) hnodup
  · intro w hw
    have hw1 : w ∈ (sortByCountDesc (entriesOrder
        (buildFreq ws))).map Prod.fst := by
      rw [List.map_take] at hw
      exact (List.take_sublist _ _).subset hw
    have hw2 : w ∈ firstOccsAux [] ws := hperm.mem_iff.1 hw1
    exact firstOccsAux_subset ws [] w hw2

/-- CLAIM C3 (amended).  Both keyword paths lowercase the text, strip
characters that are neither word nor whitespace, split on whitespace, and
return at most K distinct surviving tokens ordered by descending frequency
— with ties broken by the frequency object's JavaScript enumeration order:
array-index numeral tokens first in ascending numeric order, then the
remaining tokens in first-occurrence order (pure first-occurrence order, as
the claim states it, fails on numeral tokens; see the counterexample).
`extractKeywords` in `nlpWorker.ts` (K = 10 by default) drops tokens of
length at most 3 or in the stop-word set, whereas the `performAnalyze`
keyword block in `transformWorker.ts` (K = 10) filters only by length and
applies no stop-word filter, contrary to the claim (see the
counterexample). -/
theorem extractKeywords_spec (t : List Char) (K : Nat) :
    (extractKeywords t K = amendedKeywords t K ∧
      (extractKeywords t K).length ≤ K ∧
      (extractKeywords t K).Nodup ∧
      ∀ w ∈ extractKeywords t K, 3 < w.length ∧ w ∉ STOPWORDS) ∧
    (analyzeKeywordsTW t = amendedKeywordsTW t ∧
      (analyzeKeywordsTW t).length ≤ 10 ∧
      (analyzeKeywordsTW t).Nodup ∧
      ∀ w ∈ analyzeKeywordsTW t, 3 < w.length) := by
  have h1 := keywordsPipeline_spec (keywordTokens t) K
  have h2 := keywordsPipeline_spec (analyzeKeywordTokens t) 10
  constructor
  · unfold extractKeywords amendedKeywords
    refine ⟨h1.1, h1.2.1, h1.2.2.1, ?_⟩
    intro w hw
    have hw3 : w ∈ keywordTokens t := h1.2.2.2 w hw
    unfold keywordTokens at hw3
    obtain ⟨_, hcond⟩ := List.mem_filter.1 hw3
    simp only [Bool.and_eq_true, decide_eq_true_eq, Bool.not_eq_true'] at hcond
    refine ⟨hcond.1, ?_⟩
    intro hmem
    have hcontains : STOPWORDS.contains w = true := by
      simpa using hmem
    obtain ⟨hlen3, hstop⟩ := hcond
    rw [hcontains] at hstop
    exact Bool.noConfusion hstop
  · unfold analyzeKeywordsTW amendedKeywordsTW
    refine ⟨h2.1, h2.2.1, h2.2.2.1, ?_⟩
    intro w hw
    have hw3 : w ∈ analyzeKeywordTokens t := h2.2.2.2 w hw
    unfold analyzeKeywordTokens at hw3
    obtain ⟨_, hcond⟩ := List.mem_filter.1 hw3
    simpa using hcond

/-- Counterexample to CLAIM C3 as stated, on both cited code paths.  Order:
on `"abcd efgh 2024"` every token has frequency 1, and `extractKeywords`
returns `["2024", "abcd", "efgh"]` because `Object.entries` enumerates the
array-index key `"2024"` first, while the claim's pure first-occurrence
tie-break would give `["abcd", "efgh", "2024"]`.  Stop words: the
`performAnalyze` keyword block of `transformWorker.ts` applies no stop-word
filter, so on `"that that"` it returns the stop word `"that"` as a keyword,
which the claim says is dropped. -/
theorem extractKeywords_counterexample :
    extractKeywords "abcd efgh 2024".toList 10 =
      ["2024".toList, "abcd".toList, "efgh".toList] ∧
    claimKeywords "abcd efgh 2024".toList 10 =
      ["abcd".toList, "efgh".toList, "2024".toList] ∧
    (["2024".toList, "abcd".toList, "efgh".toList] : List (List Char)) ≠
      ["abcd".toList, "efgh".toList, "2024".toList] ∧
    analyzeKeywordsTW "that that".toList = ["that".toList] ∧
    "that".toList ∈ STOPWORDS := by
  refine ⟨by decide, by decide, by decide, by decide, by decide⟩

/-! ## CLAIM C7: idempotence of the concise style

The proof characterises `replaceWB` with an all-word pattern and empty
replacement through the maximal word runs of the text: an anchored
occurrence of an all-word pattern is exactly a whole word run that matches
it case-insensitively, so the replacement deletes exactly those runs.
`wordsOf` computes the maximal word runs, `eraseWords` the run-level
deletion. -/

/-- Maximal word runs of a text (`cur` accumulates the current run,
reversed). -/
def wordsOfAux : List Char → List Char → List (List Char)
  | [], cur => if cur = [] then [] else [cur.reverse]
  | c :: rest, cur =>
      if isWordChar c then wordsOfAux rest (c :: cur)
      else
        (if cur = [] then wordsOfAux rest []
         else cur.reverse :: wordsOfAux rest [])

/-- The list of maximal word runs of a text. -/
def wordsOf (t : List Char) : List (List Char) := wordsOfAux t []

/-- Run-level deletion: copy the text but drop every maximal word run that
is case-insensitively equal to `pat` (`cur` accumulates the current run,
reversed). -/
def eraseAux (pat : List Char) : List Char → List Char → List Char
  | [], cur => if lowerL cur.reverse = lowerL pat then [] else cur.reverse
  | c :: rest, cur =>
      if isWordChar c then eraseAux pat rest (c :: cur)
      else
        (if lowerL cur.reverse = lowerL pat then [] else cur.reverse) ++
          c :: eraseAux pat rest []

/-- Deletion of every maximal word run case-insensitively equal to `pat`. -/
def eraseWords (pat t : List Char) : List Char := eraseAux pat t []

/-- No two adjacent whitespace characters (the shape `collapseWs` leaves
behind). -/
def noTwoWs : List Char → Bool
  | [] => true
  | [_] => true
  | a :: b :: r => (!(jsWs a && jsWs b)) && noTwoWs (b :: r)

theorem isWordChar_lowerChar (c : Char) :
    isWordChar (lowerChar c) = isWordChar c := by
  unfold lowerChar
  split
  all_goals rfl

theorem jsWs_not_word {c : Char} (h : jsWs c = true) : isWordChar c = false := by
  simp only [jsWs, Bool.or_eq_true, decide_eq_true_eq] at h
  rcases h with ((((h | h) | h) | h) | h) | h <;> subst h <;> decide

theorem lowerL_length (t : List Char) : (lowerL t).length = t.length := by
  simp [lowerL]

theorem lowerL_ne_nil {pat : List Char} (hp : pat ≠ []) : lowerL pat ≠ [] := by
  intro h
  apply hp
  have := lowerL_length pat
  rw [h] at this
  exact List.length_eq_zero.1 this.symm

theorem allWord_getLast_word {w : List Char} (hw : ∀ c ∈ w, isWordChar c = true)
    (hne : w ≠ []) : wOpt w.getLast? = true := by
  induction w with
  | nil => exact absurd rfl hne
  | cons c rest ih =>
      cases rest with
      | nil =>
          simp only [List.getLast?_singleton, wOpt]
          exact hw c (by simp)
      | cons d r =>
          rw [List.getLast?_cons_cons]
          exact ih (fun x hx => hw x (by simp [hx])) (by simp)

theorem dropWhile_head_not {p : Char → Bool} :
    ∀ l : List Char, l.dropWhile p = [] ∨
      ∃ d r, l.dropWhile p = d :: r ∧ p d = false := by
  intro l
  induction l with
  | nil => exact Or.inl rfl
  | cons c rest ih =>
      by_cases hc : p c
      · rw [List.dropWhile_cons_of_pos hc]
        exact ih
      · rw [List.dropWhile_cons_of_neg hc]
        exact Or.inr ⟨c, rest, rfl, by simpa using hc⟩

theorem wordsOfAux_word (c : Char) (t cur : List Char)
    (hc : isWordChar c = true) :
    wordsOfAux (c :: t) cur = wordsOfAux t (c :: cur) := by
  simp [wordsOfAux, hc]

theorem wordsOfAux_sep_cons (c : Char) (t cur : List Char)
    (hc : isWordChar c = false) :
    wordsOfAux (c :: t) cur =
      (if cur = [] then wordsOfAux t [] else cur.reverse :: wordsOfAux t []) := by
  simp [wordsOfAux, hc]

theorem wordsOfAux_absorb (w : List Char)
    (hw : ∀ c ∈ w, isWordChar c = true) :
    ∀ t cur, wordsOfAux (w ++ t) cur = wordsOfAux t (w.reverse ++ cur) := by
  induction w with
  | nil => intro t cur; simp
  | cons c w' ih =>
      intro t cur
      rw [List.cons_append, wordsOfAux_word c (w' ++ t) cur (hw c (by simp))]
      rw [ih (fun d hd => hw d (by simp [hd])) t (c :: cur)]
      congr 1
      simp

theorem wordsOfAux_flush (cur : List Char) (hcur : cur ≠ []) :
    ∀ t, (t = [] ∨ ∃ d r, t = d :: r ∧ isWordChar d = false) →
      wordsOfAux t cur = cur.reverse :: wordsOfAux t [] := by
  intro t ht
  rcases ht with rfl | ⟨d, r, rfl, hd⟩
  · simp [wordsOfAux, hcur]
  · rw [wordsOfAux_sep_cons d r cur hd, wordsOfAux_sep_cons d r [] hd]
    rw [if_neg hcur, if_pos rfl]

theorem wordsOf_run (w t : List Char) (hw : ∀ c ∈ w, isWordChar c = true)
    (hne : w ≠ [])
    (ht : t = [] ∨ ∃ d r, t = d :: r ∧ isWordChar d = false) :
    wordsOf (w ++ t) = w :: wordsOf t := by
  unfold wordsOf
  rw [wordsOfAux_absorb w hw t []]
  rw [wordsOfAux_flush (w.reverse ++ []) (by simp [hne]) t ht]
  simp

theorem wordsOf_sep (c : Char) (t : List Char) (hc : isWordChar c = false) :
    wordsOf (c :: t) = wordsOf t := by
  unfold wordsOf
  rw [wordsOfAux_sep_cons c t [] hc, if_pos rfl]

theorem eraseAux_word (pat : List Char) (c : Char) (t cur : List Char)
    (hc : isWordChar c = true) :
    eraseAux pat (c :: t) cur = eraseAux pat t (c :: cur) := by
  simp [eraseAux, hc]

theorem eraseAux_sep (pat : List Char) (c : Char) (t cur : List Char)
    (hc : isWordChar c = false) :
    eraseAux pat (c :: t) cur =
      (if lowerL cur.reverse = lowerL pat then [] else cur.reverse) ++
        c :: eraseAux pat t [] := by
  simp [eraseAux, hc]

theorem eraseWords_sep (pat : List Char) (c : Char) (t : List Char)
    (hp : pat ≠ []) (hc : isWordChar c = false) :
    eraseWords pat (c :: t) = c :: eraseWords pat t := by
  unfold eraseWords
  rw [eraseAux_sep pat c t [] hc]
  rw [if_neg (fun h => lowerL_ne_nil hp h.symm)]
  simp

theorem eraseAux_absorb (pat w : List Char)
    (hw : ∀ c ∈ w, isWordChar c = true) :
    ∀ t cur, eraseAux pat (w ++ t) cur = eraseAux pat t (w.reverse ++ cur) := by
  induction w with
  | nil => intro t cur; simp
  | cons c w' ih =>
      intro t cur
      rw [List.cons_append, eraseAux_word pat c (w' ++ t) cur (hw c (by simp))]
      rw [ih (fun d hd => hw d (by simp [hd])) t (c :: cur)]
      congr 1
      simp

theorem eraseAux_flush (pat cur : List Char) :
    ∀ t, (t = [] ∨ ∃ d r, t = d :: r ∧ isWordChar d = false) →
      eraseAux pat t cur =
        (if lowerL cur.reverse = lowerL pat then [] else cur.reverse) ++
          eraseAux pat t [] := by
  intro t ht
  rcases ht with rfl | ⟨d, r, rfl, hd⟩
  · simp [eraseAux]
  · rw [eraseAux_sep pat d r cur hd, eraseAux_sep pat d r [] hd]
    simp

theorem eraseWords_run (pat w t : List Char)
    (hw : ∀ c ∈ w, isWordChar c = true)
    (ht : t = [] ∨ ∃ d r, t = d :: r ∧ isWordChar d = false) :
    eraseWords pat (w ++ t) =
      (if lowerL w = lowerL pat then [] else w) ++ eraseWords pat t := by
  unfold eraseWords
  rw [eraseAux_absorb pat w hw t []]
  rw [eraseAux_flush pat (w.reverse ++ []) t ht]
  simp

theorem eraseWords_nil (pat : List Char) : eraseWords pat [] = [] := by
  simp [eraseWords, eraseAux]

theorem eraseWords_head_sep (pat t : List Char) (hp : pat ≠ [])
    (ht : t = [] ∨ ∃ d r, t = d :: r ∧ isWordChar d = false) :
    eraseWords pat t = [] ∨
      ∃ d r', eraseWords pat t = d :: r' ∧ isWordChar d = false := by
  rcases ht with rfl | ⟨d, r, rfl, hd⟩
  · left
    exact eraseWords_nil pat
  · right
    exact ⟨d, eraseWords pat r, by rw [eraseWords_sep pat d r hp hd], hd⟩

theorem matchesAt_length {pat s : List Char}
    (h : matchesAt true pat s = true) : pat.length ≤ s.length := by
  induction pat generalizing s with
  | nil => simp
  | cons p ps ih =>
      cases s with
      | nil => simp [matchesAt] at h
      | cons c cs =>
          simp only [matchesAt, Bool.and_eq_true] at h
          have := ih h.2
          simp only [List.length_cons]
          omega

theorem matchesAt_lowerL {pat s : List Char}
    (h : matchesAt true pat s = true) :
    lowerL (s.take pat.length) = lowerL pat := by
  induction pat generalizing s with
  | nil => simp [lowerL]
  | cons p ps ih =>
      cases s with
      | nil => simp [matchesAt] at h
      | cons c cs =>
          simp only [matchesAt, Bool.and_eq_true] at h
          have h1 : lowerChar p = lowerChar c := by
            have h2 := h.1
            simpa [charMatches] using h2
          simp only [List.length_cons, List.take_succ_cons, lowerL,
            List.map_cons]
          congr 1
          · exact h1.symm
          · exact ih h.2

theorem matchesAt_of_lowerL {pat w : List Char} (h : lowerL w = lowerL pat) :
    ∀ t, matchesAt true pat (w ++ t) = true := by
  induction pat generalizing w with
  | nil => intro t; rfl
  | cons p ps ih =>
      intro t
      cases w with
      | nil => exact absurd h (by simp [lowerL])
      | cons c w' =>
          simp only [lowerL, List.map_cons, List.cons.injEq] at h
          simp only [List.cons_append, matchesAt, Bool.and_eq_true]
          constructor
          · simp [charMatches, h.1]
          · exact ih (show lowerL w' = lowerL ps from h.2) t

theorem matchesAt_split {p₁ w : List Char} (hlen : p₁.length = w.length) :
    ∀ (p₂ t : List Char), matchesAt true (p₁ ++ p₂) (w ++ t)
      = (matchesAt true p₁ w && matchesAt true p₂ t) := by
  induction p₁ generalizing w with
  | nil =>
      intro p₂ t
      have hw : w = [] := List.length_eq_zero.1 hlen.symm
      subst hw
      simp [matchesAt]
  | cons p ps ih =>
      intro p₂ t
      cases w with
      | nil => simp at hlen
      | cons c w' =>
          simp only [List.length_cons] at hlen
          simp only [List.cons_append, matchesAt, List.append_eq]
          rw [ih (by omega) p₂ t, Bool.and_assoc]

theorem allWord_head_word {l : List Char} (hne : l ≠ [])
    (hw : ∀ c ∈ l, isWordChar c = true) : wOpt l.head? = true := by
  cases l with
  | nil => exact absurd rfl hne
  | cons c r => simpa [wOpt] using hw c (by simp)

theorem sepHead_wOpt {t : List Char}
    (ht : t = [] ∨ ∃ d r, t = d :: r ∧ isWordChar d = false) :
    wOpt t.head? = false := by
  rcases ht with rfl | ⟨d, r, rfl, hd⟩
  · rfl
  · simpa [wOpt] using hd

theorem matchesAt_head_nonword (pat : List Char) (hp : pat ≠ [])
    (hw : ∀ c ∈ pat, isWordChar c = true) (s : List Char)
    (hs : s = [] ∨ ∃ d r, s = d :: r ∧ isWordChar d = false) :
    matchesAt true pat s = false := by
  cases pat with
  | nil => exact absurd rfl hp
  | cons p ps =>
      rcases hs with rfl | ⟨d, r, rfl, hd⟩
      · rfl
      · have hne : lowerChar p ≠ lowerChar d := by
          intro h
          have h2 : isWordChar p = isWordChar d := by
            rw [← isWordChar_lowerChar p, ← isWordChar_lowerChar d, h]
          rw [hw p (by simp), hd] at h2
          exact Bool.noConfusion h2
        simp [matchesAt, charMatches, hne]

theorem wbHit_prev_word (pat : List Char) (hp : pat ≠ [])
    (hw : ∀ c ∈ pat, isWordChar c = true) (prev : Option Char)
    (hprev : wOpt prev = true) (s : List Char) :
    wbHit true pat prev s = false := by
  cases s with
  | nil =>
      cases pat with
      | nil => exact absurd rfl hp
      | cons p ps => simp [wbHit, matchesAt]
  | cons c cs =>
      cases hm : matchesAt true pat (c :: cs) with
      | false => simp [wbHit, hm]
      | true =>
          have hc : isWordChar c = true := by
            cases pat with
            | nil => exact absurd rfl hp
            | cons p ps =>
                have hcm : charMatches true p c = true := by
                  have := hm
                  simp only [matchesAt, Bool.and_eq_true] at this
                  exact this.1
                have hlow : lowerChar p = lowerChar c := by
                  simpa [charMatches] using hcm
                have heq : isWordChar p = isWordChar c := by
                  rw [← isWordChar_lowerChar p, ← isWordChar_lowerChar c, hlow]
                rw [← heq]
                exact hw p (by simp)
          have hb : (wOpt prev != wOpt (c :: cs).head?) = false := by
            rw [hprev]
            simp [wOpt, hc]
          simp only [wbHit, Bool.and_eq_false_iff]
          left
          right
          exact hb

theorem wbHit_run (pat : List Char) (hp : pat ≠ [])
    (hpw : ∀ c ∈ pat, isWordChar c = true) (prev : Option Char)
    (hprev : wOpt prev = false) (w t : List Char)
    (hw : ∀ c ∈ w, isWordChar c = true) (hwne : w ≠ [])
    (ht : t = [] ∨ ∃ d r, t = d :: r ∧ isWordChar d = false) :
    wbHit true pat prev (w ++ t) = true ↔ lowerL w = lowerL pat := by
  constructor
  · intro hhit
    simp only [wbHit, Bool.and_eq_true] at hhit
    obtain ⟨⟨hm, _⟩, hbe⟩ := hhit
    by_cases hle : pat.length ≤ w.length
    · rcases Nat.lt_or_ge pat.length w.length with hlt | hge
      · exfalso
        have htake : (w ++ t).take pat.length = w.take pat.length :=
          List.take_append_of_le_length hle
        have hdrop : (w ++ t).drop pat.length = w.drop pat.length ++ t :=
          List.drop_append_of_le_length hle
        have hpp : 0 < pat.length := by
          cases pat with
          | nil => exact absurd rfl hp
          | cons a b => simp
        have h1 : wOpt ((w ++ t).take pat.length).getLast? = true := by
          rw [htake]
          apply allWord_getLast_word
          · intro c hc
            exact hw c (List.take_subset _ _ hc)
          · intro hnil
            have := congrArg List.length hnil
            simp only [List.length_take, List.length_nil] at this
            omega
        have h2 : wOpt ((w ++ t).drop pat.length).head? = true := by
          rw [hdrop]
          have hdne : w.drop pat.length ≠ [] := by
            intro hnil
            have := congrArg List.length hnil
            simp only [List.length_drop, List.length_nil] at this
            omega
          cases hd : w.drop pat.length with
          | nil => exact absurd hd hdne
          | cons e es =>
              have he : isWordChar e = true := by
                apply hw
                apply List.drop_subset pat.length
                rw [hd]
                simp
              simp [wOpt, he]
        rw [h1, h2] at hbe
        simp at hbe
      · have hlen : pat.length = w.length := by omega
        have htake : (w ++ t).take pat.length = w := by
          rw [hlen, List.take_left]
        have hlow := matchesAt_lowerL hm
        rw [htake] at hlow
        exact hlow
    · exfalso
      push_neg at hle
      have hdecomp : pat = pat.take w.length ++ pat.drop w.length :=
        (List.take_append_drop _ _).symm
      have hlen1 : (pat.take w.length).length = w.length := by
        rw [List.length_take]
        omega
      have hm2 : matchesAt true (pat.take w.length ++ pat.drop w.length)
          (w ++ t) = true := by
        rw [← hdecomp]
        exact hm
      rw [matchesAt_split hlen1 _ t, Bool.and_eq_true] at hm2
      have hdne : pat.drop w.length ≠ [] := by
        intro hnil
        have := congrArg List.length hnil
        simp only [List.length_drop, List.length_nil] at this
        omega
      have hK1 := matchesAt_head_nonword (pat.drop w.length) hdne
        (fun c hc => hpw c (List.drop_subset _ _ hc)) t ht
      rw [hK1] at hm2
      exact Bool.noConfusion hm2.2
  · intro heq
    have hlen : w.length = pat.length := by
      have hh := congrArg List.length heq
      simpa [lowerL_length] using hh
    simp only [wbHit, Bool.and_eq_true]
    refine ⟨⟨matchesAt_of_lowerL heq t, ?_⟩, ?_⟩
    · have hhead : wOpt (w ++ t).head? = true := by
        cases w with
        | nil => exact absurd rfl hwne
        | cons c w' => simpa [wOpt] using hw c (by simp)
      rw [hprev, hhead]
      rfl
    · have htake : (w ++ t).take pat.length = w := by
        rw [← hlen, List.take_left]
      have hdrop : (w ++ t).drop pat.length = t := by
        rw [← hlen, List.drop_left]
      rw [htake, hdrop, allWord_getLast_word hw hwne, sepHead_wOpt ht]
      rfl

theorem replFuel_eq_erase (pat : List Char) (hp : pat ≠ [])
    (hpw : ∀ c ∈ pat, isWordChar c = true) :
    ∀ (fuel : Nat) (cs : List Char) (prev : Option Char), cs.length ≤ fuel →
      replFuel true pat [] fuel prev cs
        = (if wOpt prev = true then
            cs.takeWhile isWordChar ++ eraseWords pat (cs.dropWhile isWordChar)
          else eraseWords pat cs) := by
  intro fuel
  induction fuel with
  | zero =>
      intro cs prev hle
      have hnil : cs = [] := List.length_eq_zero.1 (by omega)
      subst hnil
      simp [replFuel, eraseWords_nil]
  | succ n ih =>
      intro cs prev hle
      cases cs with
      | nil => simp [replFuel, eraseWords_nil]
      | cons c rest =>
          have hle' : rest.length ≤ n := by
            simp only [List.length_cons] at hle
            omega
          by_cases hprev : wOpt prev = true
          · have hhit := wbHit_prev_word pat hp hpw prev hprev (c :: rest)
            rw [if_pos hprev]
            simp only [replFuel]
            rw [if_neg (by simp [hhit])]
            by_cases hc : isWordChar c = true
            · rw [ih rest (some c) hle',
                if_pos (show wOpt (some c) = true from hc)]
              rw [List.takeWhile_cons_of_pos hc, List.dropWhile_cons_of_pos hc]
              simp
            · rw [ih rest (some c) hle',
                if_neg (show ¬ wOpt (some c) = true from hc)]
              rw [List.takeWhile_cons_of_neg (by simpa using hc),
                List.dropWhile_cons_of_neg (by simpa using hc)]
              rw [eraseWords_sep pat c rest hp
                (by cases hv : isWordChar c
                    · rfl
                    · exact absurd hv hc)]
              simp
          · rw [if_neg hprev]
            have hprev' : wOpt prev = false := by
              cases hpv : wOpt prev
              · rfl
              · exact absurd hpv hprev
            by_cases hc : isWordChar c = true
            · have hsplit : c :: rest
                  = (c :: rest.takeWhile isWordChar) ++ rest.dropWhile isWordChar := by
                simp [List.takeWhile_append_dropWhile]
              have hwall : ∀ d ∈ c :: rest.takeWhile isWordChar,
                  isWordChar d = true := by
                intro d hd
                rcases List.mem_cons.1 hd with h | h
                · subst h; exact hc
                · exact List.mem_takeWhile_imp h
              have hwne : (c :: rest.takeWhile isWordChar) ≠ [] := by simp
              have ht'sep := dropWhile_head_not (p := isWordChar) rest
              have ht'len : (rest.dropWhile isWordChar).length ≤ n := by
                have := (List.dropWhile_suffix (p := isWordChar) (l := rest)).length_le
                omega
              have hhit := wbHit_run pat hp hpw prev hprev'
                (c :: rest.takeWhile isWordChar) (rest.dropWhile isWordChar)
                hwall hwne ht'sep
              by_cases heq : lowerL (c :: rest.takeWhile isWordChar) = lowerL pat
              · have hhit' : wbHit true pat prev (c :: rest) = true := by
                  rw [hsplit]
                  exact hhit.2 heq
                simp only [replFuel]
                rw [if_pos hhit']
                have hlen : pat.length = (c :: rest.takeWhile isWordChar).length := by
                  have hh := congrArg List.length heq
                  simp only [lowerL_length] at hh
                  omega
                have htake : (c :: rest).take pat.length
                    = c :: rest.takeWhile isWordChar := by
                  rw [hsplit, hlen, List.take_left]
                have hdrop : (c :: rest).drop pat.length
                    = rest.dropWhile isWordChar := by
                  rw [hsplit, hlen, List.drop_left]
                rw [htake, hdrop]
                have hlast : wOpt (c :: rest.takeWhile isWordChar).getLast? = true :=
                  allWord_getLast_word hwall hwne
                rw [ih (rest.dropWhile isWordChar) _ ht'len, if_pos hlast]
                have htw : (rest.dropWhile isWordChar).takeWhile isWordChar = [] := by
                  rcases ht'sep with h | ⟨d, r, hdr, hd⟩
                  · rw [h]; rfl
                  · rw [hdr, List.takeWhile_cons_of_neg (by simp [hd])]
                have hdw : (rest.dropWhile isWordChar).dropWhile isWordChar
                    = rest.dropWhile isWordChar := by
                  rcases ht'sep with h | ⟨d, r, hdr, hd⟩
                  · rw [h]; rfl
                  · rw [hdr, List.dropWhile_cons_of_neg (by simp [hd])]
                rw [htw, hdw]
                conv_rhs => rw [hsplit]
                rw [eraseWords_run pat _ _ hwall ht'sep, if_pos heq]
                simp
              · have hhit' : wbHit true pat prev (c :: rest) = false := by
                  rw [hsplit]
                  cases hv : wbHit true pat prev
                      ((c :: rest.takeWhile isWordChar) ++ rest.dropWhile isWordChar)
                  · rfl
                  · exact absurd (hhit.1 hv) heq
                simp only [replFuel]
                rw [if_neg (by simp [hhit'])]
                rw [ih rest (some c) hle',
                  if_pos (show wOpt (some c) = true from hc)]
                conv_rhs => rw [hsplit]
                rw [eraseWords_run pat _ _ hwall ht'sep, if_neg heq]
                simp
            · have hm := matchesAt_head_nonword pat hp hpw (c :: rest)
                (Or.inr ⟨c, rest, rfl, by
                  cases hv : isWordChar c
                  · rfl
                  · exact absurd hv hc⟩)
              simp only [replFuel]
              rw [if_neg (by simp [wbHit, hm])]
              rw [ih rest (some c) hle',
                if_neg (show ¬ wOpt (some c) = true from hc)]
              rw [eraseWords_sep pat c rest hp
                (by cases hv : isWordChar c
                    · rfl
                    · exact absurd hv hc)]

/-- For a non-empty all-word pattern with empty replacement, the
word-boundary replacement deletes exactly the maximal word runs that match
the pattern case-insensitively. -/
theorem replaceWB_eq_eraseWords (pat : List Char) (hp : pat ≠ [])
    (hpw : ∀ c ∈ pat, isWordChar c = true) (t : List Char) :
    replaceWB true pat [] t = eraseWords pat t := by
  unfold replaceWB
  rw [replFuel_eq_erase pat hp hpw t.length t none (le_refl _)]
  rfl

theorem wordsOf_allword (w : List Char) (hne : w ≠ [])
    (hw : ∀ c ∈ w, isWordChar c = true) : wordsOf w = [w] := by
  have h := wordsOf_run w [] hw hne (Or.inl rfl)
  simp only [List.append_nil] at h
  rw [h]
  rfl

theorem eraseAux_id (pat : List Char) (hp : pat ≠ []) :
    ∀ (t cur : List Char),
      lowerL pat ∉ (wordsOfAux t cur).map lowerL →
      eraseAux pat t cur = cur.reverse ++ t := by
  intro t
  induction t with
  | nil =>
      intro cur hmem
      by_cases hcur : cur = []
      · subst hcur
        simp only [eraseAux]
        rw [if_neg (fun h => lowerL_ne_nil hp h.symm)]
        rfl
      · simp only [wordsOfAux, if_neg hcur, List.map_cons, List.mem_cons,
          List.map_nil, List.not_mem_nil, or_false] at hmem
        simp only [eraseAux]
        rw [if_neg (fun h => hmem h.symm)]
        simp
  | cons c rest ih =>
      intro cur hmem
      by_cases hc : isWordChar c = true
      · rw [eraseAux_word pat c rest cur hc]
        rw [wordsOfAux_word c rest cur hc] at hmem
        rw [ih (c :: cur) hmem]
        simp
      · have hcf : isWordChar c = false := by
          cases hv : isWordChar c
          · rfl
          · exact absurd hv hc
        rw [eraseAux_sep pat c rest cur hcf]
        rw [wordsOfAux_sep_cons c rest cur hcf] at hmem
        by_cases hcur : cur = []
        · subst hcur
          rw [if_pos rfl] at hmem
          rw [if_neg (fun h => lowerL_ne_nil hp h.symm)]
          rw [ih [] hmem]
          rfl
        · rw [if_neg hcur] at hmem
          simp only [List.map_cons, List.mem_cons, not_or] at hmem
          rw [if_neg (fun h => hmem.1 h.symm)]
          rw [ih [] hmem.2]
          simp

/-- `eraseWords` is the identity on texts none of whose maximal word runs
matches the pattern case-insensitively. -/
theorem eraseWords_id (pat : List Char) (hp : pat ≠ []) (u : List Char)
    (hmem : lowerL pat ∉ (wordsOf u).map lowerL) :
    eraseWords pat u = u := by
  unfold eraseWords
  rw [eraseAux_id pat hp u [] hmem]
  rfl

theorem wordsOf_eraseAux (pat : List Char) (hp : pat ≠ []) :
    ∀ (t cur : List Char), (∀ c ∈ cur, isWordChar c = true) →
      wordsOf (eraseAux pat t cur)
        = (wordsOfAux t cur).filter (fun w => !(lowerL w == lowerL pat)) := by
  intro t
  induction t with
  | nil =>
      intro cur hcur
      by_cases hc0 : cur = []
      · subst hc0
        simp only [eraseAux]
        rw [if_neg (fun h => lowerL_ne_nil hp h.symm)]
        rfl
      · simp only [eraseAux, wordsOfAux, if_neg hc0]
        by_cases heq : lowerL cur.reverse = lowerL pat
        · rw [if_pos heq]
          rw [List.filter_cons_of_neg (by simp [heq])]
          rfl
        · rw [if_neg heq]
          rw [List.filter_cons_of_pos (by simp [heq])]
          rw [wordsOf_allword cur.reverse (by simp [hc0])
            (by intro c hcm; exact hcur c (List.mem_reverse.1 hcm))]
          rfl
  | cons c rest ih =>
      intro cur hcur
      by_cases hc : isWordChar c = true
      · rw [eraseAux_word pat c rest cur hc, wordsOfAux_word c rest cur hc]
        exact ih (c :: cur) (by
          intro d hd
          rcases List.mem_cons.1 hd with h | h
          · subst h; exact hc
          · exact hcur d h)
      · have hcf : isWordChar c = false := by
          cases hv : isWordChar c
          · rfl
          · exact absurd hv hc
        rw [eraseAux_sep pat c rest cur hcf, wordsOfAux_sep_cons c rest cur hcf]
        by_cases hc0 : cur = []
        · subst hc0
          rw [if_pos rfl]
          simp only [List.reverse_nil]
          rw [if_neg (fun h => lowerL_ne_nil hp (by simpa using h.symm))]
          simp only [List.nil_append]
          rw [wordsOf_sep c _ hcf]
          exact ih [] (by intro d hd; exact absurd hd (List.not_mem_nil d))
        · rw [if_neg hc0]
          by_cases heq : lowerL cur.reverse = lowerL pat
          · rw [if_pos heq]
            rw [List.filter_cons_of_neg (by simp [heq])]
            simp only [List.nil_append]
            rw [wordsOf_sep c _ hcf]
            exact ih [] (by intro d hd; exact absurd hd (List.not_mem_nil d))
          · rw [if_neg heq]
            rw [List.filter_cons_of_pos (by simp [heq])]
            have hrun : wordsOf (cur.reverse ++ c :: eraseAux pat rest [])
                = cur.reverse :: wordsOf (c :: eraseAux pat rest []) := by
              apply wordsOf_run
              · intro d hd
                exact hcur d (List.mem_reverse.1 hd)
              · simp [hc0]
              · exact Or.inr ⟨c, _, rfl, hcf⟩
            rw [hrun, wordsOf_sep c _ hcf]
            rw [ih [] (by intro d hd; exact absurd hd (List.not_mem_nil d))]

/-- The maximal word runs surviving `eraseWords` are exactly those that do
not match the pattern. -/
theorem wordsOf_eraseWords (pat : List Char) (hp : pat ≠ []) (u : List Char) :
    wordsOf (eraseWords pat u)
      = (wordsOf u).filter (fun w => !(lowerL w == lowerL pat)) := by
  unfold eraseWords wordsOf
  exact wordsOf_eraseAux pat hp u []
    (by intro d hd; exact absurd hd (List.not_mem_nil d))

theorem wordsOfAux_collapse : ∀ t : List Char,
    (∀ cur, wordsOfAux (collapseAux t false) cur = wordsOfAux t cur) ∧
      wordsOfAux (collapseAux t true) [] = wordsOfAux t [] := by
  intro t
  induction t with
  | nil => exact ⟨fun _ => rfl, rfl⟩
  | cons c rest ih =>
      constructor
      · intro cur
        by_cases hcw : jsWs c = true
        · by_cases hh : headIsWs rest = true
          · rw [show collapseAux (c :: rest) false = ' ' :: collapseAux rest true
                from by simp [collapseAux, hcw, hh]]
            rw [wordsOfAux_sep_cons ' ' _ cur (by decide)]
            rw [wordsOfAux_sep_cons c rest cur (jsWs_not_word hcw)]
            rw [ih.2]
          · rw [show collapseAux (c :: rest) false = c :: collapseAux rest false
                from by simp [collapseAux, hcw, hh]]
            rw [wordsOfAux_sep_cons c _ cur (jsWs_not_word hcw)]
            rw [wordsOfAux_sep_cons c rest cur (jsWs_not_word hcw)]
            rw [ih.1]
        · rw [show collapseAux (c :: rest) false = c :: collapseAux rest false
              from by simp [collapseAux, hcw]]
          by_cases hc : isWordChar c = true
          · rw [wordsOfAux_word c _ cur hc, wordsOfAux_word c rest cur hc, ih.1]
          · have hcf : isWordChar c = false := by
              cases hv : isWordChar c
              · rfl
              · exact absurd hv hc
            rw [wordsOfAux_sep_cons c _ cur hcf,
              wordsOfAux_sep_cons c rest cur hcf, ih.1]
      · by_cases hcw : jsWs c = true
        · rw [show collapseAux (c :: rest) true = collapseAux rest true
              from by simp [collapseAux, hcw]]
          rw [ih.2]
          rw [wordsOfAux_sep_cons c rest [] (jsWs_not_word hcw), if_pos rfl]
        · rw [show collapseAux (c :: rest) true = c :: collapseAux rest false
              from by simp [collapseAux, hcw]]
          by_cases hc : isWordChar c = true
          · rw [wordsOfAux_word c _ [] hc, wordsOfAux_word c rest [] hc, ih.1]
          · have hcf : isWordChar c = false := by
              cases hv : isWordChar c
              · rfl
              · exact absurd hv hc
            rw [wordsOfAux_sep_cons c _ [] hcf,
              wordsOfAux_sep_cons c rest [] hcf, if_pos rfl, if_pos rfl, ih.1]

/-- Collapsing whitespace runs does not change the maximal word runs. -/
theorem wordsOf_collapseWs (t : List Char) :
    wordsOf (collapseWs t) = wordsOf t :=
  (wordsOfAux_collapse t).1 []

theorem dropTrailingWs_eq_nil : ∀ s : List Char, dropTrailingWs s = [] →
    ∀ c ∈ s, jsWs c = true := by
  intro s
  induction s with
  | nil => intro _ c hc; exact absurd hc (List.not_mem_nil c)
  | cons c rest ih =>
      intro h d hd
      simp only [dropTrailingWs] at h
      by_cases hcond : ((dropTrailingWs rest).isEmpty && jsWs c) = true
      · simp only [Bool.and_eq_true, List.isEmpty_iff] at hcond
        rcases List.mem_cons.1 hd with rfl | hd'
        · exact hcond.2
        · exact ih hcond.1 d hd'
      · rw [if_neg hcond] at h
        exact absurd h (List.cons_ne_nil _ _)

theorem wordsOfAux_allWs : ∀ s : List Char, (∀ c ∈ s, jsWs c = true) →
    ∀ cur, wordsOfAux s cur = wordsOfAux [] cur := by
  intro s
  induction s with
  | nil => intro _ cur; rfl
  | cons c rest ih =>
      intro h cur
      have hcf : isWordChar c = false := jsWs_not_word (h c (List.mem_cons_self c rest))
      rw [wordsOfAux_sep_cons c rest cur hcf]
      have hr := ih (fun d hd => h d (List.mem_cons_of_mem c hd))
      by_cases hc0 : cur = []
      · subst hc0
        rw [if_pos rfl, hr]
      · rw [if_neg hc0, hr []]
        simp [wordsOfAux, hc0]

theorem wordsOfAux_dropTrailing : ∀ (t cur : List Char),
    wordsOfAux (dropTrailingWs t) cur = wordsOfAux t cur := by
  intro t
  induction t with
  | nil => intro cur; rfl
  | cons c rest ih =>
      intro cur
      by_cases hcond : ((dropTrailingWs rest).isEmpty && jsWs c) = true
      · rw [show dropTrailingWs (c :: rest) = [] from by
          simp only [dropTrailingWs]; rw [if_pos hcond]]
        have hcond' := hcond
        simp only [Bool.and_eq_true, List.isEmpty_iff] at hcond'
        have hall : ∀ d ∈ c :: rest, jsWs d = true := by
          intro d hd
          rcases List.mem_cons.1 hd with rfl | hd'
          · exact hcond'.2
          · exact dropTrailingWs_eq_nil rest hcond'.1 d hd'
        exact (wordsOfAux_allWs (c :: rest) hall cur).symm
      · rw [show dropTrailingWs (c :: rest) = c :: dropTrailingWs rest from by
          simp only [dropTrailingWs]; rw [if_neg hcond]]
        by_cases hc : isWordChar c = true
        · rw [wordsOfAux_word c _ cur hc, wordsOfAux_word c rest cur hc, ih]
        · have hcf : isWordChar c = false := by
            cases hv : isWordChar c
            · rfl
            · exact absurd hv hc
          rw [wordsOfAux_sep_cons c _ cur hcf,
            wordsOfAux_sep_cons c rest cur hcf, ih]

theorem wordsOf_dropWhileWs : ∀ t : List Char,
    wordsOf (t.dropWhile jsWs) = wordsOf t := by
  intro t
  induction t with
  | nil => rfl
  | cons c rest ih =>
      by_cases hcw : jsWs c = true
      · rw [List.dropWhile_cons_of_pos hcw, ih, wordsOf_sep c rest (jsWs_not_word hcw)]
      · rw [List.dropWhile_cons_of_neg hcw]

/-- Trimming does not change the maximal word runs. -/
theorem wordsOf_trimWs (t : List Char) : wordsOf (trimWs t) = wordsOf t := by
  unfold trimWs
  show wordsOfAux (dropTrailingWs (t.dropWhile jsWs)) [] = wordsOf t
  rw [wordsOfAux_dropTrailing]
  exact wordsOf_dropWhileWs t

theorem noTwoWs_tail {c : Char} {r : List Char} (h : noTwoWs (c :: r) = true) :
    noTwoWs r = true := by
  cases r with
  | nil => rfl
  | cons d r' =>
      simp only [noTwoWs, Bool.and_eq_true] at h
      exact h.2

theorem noTwoWs_pair {a b : Char} {r : List Char}
    (h : noTwoWs (a :: b :: r) = true) :
    (jsWs a && jsWs b) = false ∧ noTwoWs (b :: r) = true := by
  simp only [noTwoWs, Bool.and_eq_true, Bool.not_eq_true'] at h
  exact ⟨h.1, h.2⟩

theorem noTwoWs_cons (c : Char) (x : List Char) (hx : noTwoWs x = true)
    (hhead : x = [] ∨ ∃ d r, x = d :: r ∧ (jsWs c && jsWs d) = false) :
    noTwoWs (c :: x) = true := by
  rcases hhead with rfl | ⟨d, r, rfl, hd⟩
  · rfl
  · simp only [noTwoWs, Bool.and_eq_true, Bool.not_eq_true']
    exact ⟨hd, hx⟩

theorem noTwoWs_cons_of_nonws (c : Char) (x : List Char)
    (hc : jsWs c = false) (hx : noTwoWs x = true) :
    noTwoWs (c :: x) = true := by
  apply noTwoWs_cons c x hx
  cases x with
  | nil => exact Or.inl rfl
  | cons d r => exact Or.inr ⟨d, r, rfl, by rw [hc]; rfl⟩

theorem collapseAux_true_head : ∀ t : List Char,
    collapseAux t true = [] ∨
      ∃ d r, collapseAux t true = d :: r ∧ jsWs d = false := by
  intro t
  induction t with
  | nil => exact Or.inl rfl
  | cons c rest ih =>
      by_cases hcw : jsWs c = true
      · rw [show collapseAux (c :: rest) true = collapseAux rest true
            from by simp [collapseAux, hcw]]
        exact ih
      · refine Or.inr ⟨c, collapseAux rest false, ?_, ?_⟩
        · simp [collapseAux, hcw]
        · cases hv : jsWs c
          · rfl
          · exact absurd hv hcw

theorem collapseAux_false_head : ∀ t : List Char, headIsWs t = false →
    collapseAux t false = [] ∨
      ∃ d r, collapseAux t false = d :: r ∧ jsWs d = false := by
  intro t ht
  cases t with
  | nil => exact Or.inl rfl
  | cons c rest =>
      have hcw : jsWs c = false := ht
      refine Or.inr ⟨c, collapseAux rest false, ?_, hcw⟩
      simp [collapseAux, hcw]

theorem noTwoWs_collapseAux : ∀ t : List Char,
    noTwoWs (collapseAux t false) = true ∧
      noTwoWs (collapseAux t true) = true := by
  intro t
  induction t with
  | nil => exact ⟨rfl, rfl⟩
  | cons c rest ih =>
      constructor
      · by_cases hcw : jsWs c = true
        · by_cases hh : headIsWs rest = true
          · rw [show collapseAux (c :: rest) false = ' ' :: collapseAux rest true
                from by simp [collapseAux, hcw, hh]]
            apply noTwoWs_cons ' ' _ ih.2
            rcases collapseAux_true_head rest with h | ⟨d, r, h, hd⟩
            · exact Or.inl h
            · exact Or.inr ⟨d, r, h, by rw [hd]; exact Bool.and_false _⟩
          · rw [show collapseAux (c :: rest) false = c :: collapseAux rest false
                from by simp [collapseAux, hcw, hh]]
            apply noTwoWs_cons c _ ih.1
            have hh' : headIsWs rest = false := by
              cases hv : headIsWs rest
              · rfl
              · exact absurd hv hh
            rcases collapseAux_false_head rest hh' with h | ⟨d, r, h, hd⟩
            · exact Or.inl h
            · exact Or.inr ⟨d, r, h, by rw [hd]; exact Bool.and_false _⟩
        · have hcwf : jsWs c = false := by
            cases hv : jsWs c
            · rfl
            · exact absurd hv hcw
          rw [show collapseAux (c :: rest) false = c :: collapseAux rest false
              from by simp [collapseAux, hcw]]
          exact noTwoWs_cons_of_nonws c _ hcwf ih.1
      · by_cases hcw : jsWs c = true
        · rw [show collapseAux (c :: rest) true = collapseAux rest true
              from by simp [collapseAux, hcw]]
          exact ih.2
        · have hcwf : jsWs c = false := by
            cases hv : jsWs c
            · rfl
            · exact absurd hv hcw
          rw [show collapseAux (c :: rest) true = c :: collapseAux rest false
              from by simp [collapseAux, hcw]]
          exact noTwoWs_cons_of_nonws c _ hcwf ih.1

theorem noTwoWs_collapseWs (t : List Char) : noTwoWs (collapseWs t) = true :=
  (noTwoWs_collapseAux t).1

/-- Texts with no two adjacent whitespace characters are fixed points of
whitespace collapsing. -/
theorem collapseWs_id : ∀ t : List Char, noTwoWs t = true →
    collapseWs t = t := by
  intro t
  unfold collapseWs
  induction t with
  | nil => intro _; rfl
  | cons c rest ih =>
      intro h
      have hcond : (jsWs c && headIsWs rest) = false := by
        cases rest with
        | nil => exact Bool.and_false _
        | cons d r =>
            show (jsWs c && jsWs d) = false
            exact (noTwoWs_pair h).1
      rw [show collapseAux (c :: rest) false = c :: collapseAux rest false
          from by simp [collapseAux, hcond]]
      rw [ih (noTwoWs_tail h)]

theorem noTwoWs_dropWhile : ∀ t : List Char, noTwoWs t = true →
    noTwoWs (t.dropWhile jsWs) = true := by
  intro t
  induction t with
  | nil => intro _; rfl
  | cons c rest ih =>
      intro h
      by_cases hcw : jsWs c = true
      · rw [List.dropWhile_cons_of_pos hcw]
        exact ih (noTwoWs_tail h)
      · rw [List.dropWhile_cons_of_neg hcw]
        exact h

theorem dropTrailingWs_cases (c : Char) (rest : List Char) :
    dropTrailingWs (c :: rest) = [] ∨
      dropTrailingWs (c :: rest) = c :: dropTrailingWs rest := by
  by_cases hcond : ((dropTrailingWs rest).isEmpty && jsWs c) = true
  · left
    simp only [dropTrailingWs]
    rw [if_pos hcond]
  · right
    simp only [dropTrailingWs]
    rw [if_neg hcond]

theorem noTwoWs_dropTrailing : ∀ t : List Char, noTwoWs t = true →
    noTwoWs (dropTrailingWs t) = true := by
  intro t
  induction t with
  | nil => intro _; rfl
  | cons c rest ih =>
      intro h
      rcases dropTrailingWs_cases c rest with heq | heq
      · rw [heq]; rfl
      · rw [heq]
        apply noTwoWs_cons c _ (ih (noTwoWs_tail h))
        cases rest with
        | nil => exact Or.inl rfl
        | cons d r =>
            rcases dropTrailingWs_cases d r with h2 | h2
            · exact Or.inl h2
            · exact Or.inr ⟨d, dropTrailingWs r, h2, (noTwoWs_pair h).1⟩

theorem noTwoWs_trimWs (t : List Char) (h : noTwoWs t = true) :
    noTwoWs (trimWs t) = true :=
  noTwoWs_dropTrailing _ (noTwoWs_dropWhile t h)

theorem dropTrailingWs_idem : ∀ s : List Char,
    dropTrailingWs (dropTrailingWs s) = dropTrailingWs s := by
  intro s
  induction s with
  | nil => rfl
  | cons c rest ih =>
      by_cases hcond : ((dropTrailingWs rest).isEmpty && jsWs c) = true
      · rw [show dropTrailingWs (c :: rest) = [] from by
          simp only [dropTrailingWs]; rw [if_pos hcond]]
        rfl
      · rw [show dropTrailingWs (c :: rest) = c :: dropTrailingWs rest from by
          simp only [dropTrailingWs]; rw [if_neg hcond]]
        show dropTrailingWs (c :: dropTrailingWs rest) = c :: dropTrailingWs rest
        simp only [dropTrailingWs]
        rw [ih, if_neg hcond]

/-- `trim` is idempotent. -/
theorem trimWs_idem (t : List Char) : trimWs (trimWs t) = trimWs t := by
  have hdw : (dropTrailingWs (t.dropWhile jsWs)).dropWhile jsWs
      = dropTrailingWs (t.dropWhile jsWs) := by
    rcases dropWhile_head_not (p := jsWs) t with h | ⟨d, r, h, hd⟩
    · rw [h]
      rfl
    · rw [h]
      rcases dropTrailingWs_cases d r with h2 | h2
      · rw [h2]
        rfl
      · rw [h2, List.dropWhile_cons_of_neg (by simp [hd])]
  show dropTrailingWs ((dropTrailingWs (t.dropWhile jsWs)).dropWhile jsWs)
      = trimWs t
  rw [hdw]
  exact dropTrailingWs_idem _

theorem foldl_replaceWB_eq_erase : ∀ fs : List (List Char),
    (∀ f ∈ fs, f ≠ [] ∧ ∀ c ∈ f, isWordChar c = true) →
    ∀ t, fs.foldl (fun acc f => replaceWB true f [] acc) t
      = fs.foldl (fun acc f => eraseWords f acc) t := by
  intro fs
  induction fs with
  | nil => intro _ t; rfl
  | cons g fs' ih =>
      intro h t
      simp only [List.foldl_cons]
      rw [replaceWB_eq_eraseWords g (h g (List.mem_cons_self g fs')).1
        (h g (List.mem_cons_self g fs')).2]
      exact ih (fun f hf => h f (List.mem_cons_of_mem g hf)) _

theorem wordsOf_foldl_erase : ∀ fs : List (List Char),
    (∀ f ∈ fs, f ≠ []) →
    ∀ t, wordsOf (fs.foldl (fun acc f => eraseWords f acc) t)
      = fs.foldl (fun l f => l.filter (fun w => !(lowerL w == lowerL f)))
          (wordsOf t) := by
  intro fs
  induction fs with
  | nil => intro _ t; rfl
  | cons g fs' ih =>
      intro h t
      simp only [List.foldl_cons]
      rw [ih (fun f hf => h f (List.mem_cons_of_mem g hf)) (eraseWords g t)]
      rw [wordsOf_eraseWords g (h g (List.mem_cons_self g fs')) t]

theorem foldl_filter_sublist : ∀ (fs : List (List Char)) (l : List (List Char)),
    List.Sublist
      (fs.foldl (fun l f => l.filter (fun w => !(lowerL w == lowerL f))) l)
      l := by
  intro fs
  induction fs with
  | nil => intro l; exact List.Sublist.refl l
  | cons g fs' ih =>
      intro l
      simp only [List.foldl_cons]
      exact List.Sublist.trans (ih _) (List.filter_sublist l)

theorem lowerL_not_mem_filter (g : List Char) (l : List (List Char)) :
    lowerL g ∉ (l.filter (fun w => !(lowerL w == lowerL g))).map lowerL := by
  intro hmem
  obtain ⟨w, hw, hwl⟩ := List.mem_map.1 hmem
  have hcond := (List.mem_filter.1 hw).2
  simp only [Bool.not_eq_true', beq_eq_false_iff_ne, ne_eq] at hcond
  exact hcond hwl

theorem foldl_filter_not_mem : ∀ (fs : List (List Char))
    (l : List (List Char)) (f : List Char), f ∈ fs →
    lowerL f ∉
      (fs.foldl (fun l f => l.filter (fun w => !(lowerL w == lowerL f))) l).map
        lowerL := by
  intro fs
  induction fs with
  | nil => intro l f hf; exact absurd hf (List.not_mem_nil f)
  | cons g fs' ih =>
      intro l f hf
      simp only [List.foldl_cons]
      rcases List.mem_cons.1 hf with rfl | hf'
      · intro hmem
        have hsub := (foldl_filter_sublist fs'
          (l.filter (fun w => !(lowerL w == lowerL f)))).map lowerL
        exact lowerL_not_mem_filter f l (hsub.subset hmem)
      · exact ih _ f hf'

theorem foldl_erase_id : ∀ (fs : List (List Char)) (u : List Char),
    (∀ f ∈ fs, f ≠ []) →
    (∀ f ∈ fs, lowerL f ∉ (wordsOf u).map lowerL) →
    fs.foldl (fun acc f => eraseWords f acc) u = u := by
  intro fs
  induction fs with
  | nil => intro u _ _; rfl
  | cons g fs' ih =>
      intro u hne hmem
      simp only [List.foldl_cons]
      rw [eraseWords_id g (hne g (List.mem_cons_self g fs')) u
        (hmem g (List.mem_cons_self g fs'))]
      exact ih u (fun f hf => hne f (List.mem_cons_of_mem g hf))
        (fun f hf => hmem f (List.mem_cons_of_mem g hf))

/-- C7: the "concise" style transform (`STYLE_PATTERNS.concise`: remove the
six filler words at word boundaries case-insensitively, collapse whitespace
runs of length ≥ 2 to a single space, then trim) is idempotent: applying it
twice to any text yields the same string as applying it once. -/
theorem conciseTransform_idempotent (t : List Char) :
    conciseTransform (conciseTransform t) = conciseTransform t := by
  have hfill : ∀ f ∈ conciseFillers, f ≠ [] ∧ ∀ c ∈ f, isWordChar c = true := by
    decide
  have hwordsT1 : wordsOf (conciseTransform t)
      = conciseFillers.foldl
          (fun l f => l.filter (fun w => !(lowerL w == lowerL f)))
          (wordsOf t) := by
    show wordsOf (trimWs (collapseWs
      (conciseFillers.foldl (fun acc f => replaceWB true f [] acc) t))) = _
    rw [wordsOf_trimWs, wordsOf_collapseWs]
    rw [foldl_replaceWB_eq_erase conciseFillers hfill t]
    exact wordsOf_foldl_erase conciseFillers (fun f hf => (hfill f hf).1) t
  have hno : ∀ f ∈ conciseFillers,
      lowerL f ∉ (wordsOf (conciseTransform t)).map lowerL := by
    intro f hf
    rw [hwordsT1]
    exact foldl_filter_not_mem conciseFillers (wordsOf t) f hf
  have hid : conciseFillers.foldl (fun acc f => replaceWB true f [] acc)
      (conciseTransform t) = conciseTransform t := by
    rw [foldl_replaceWB_eq_erase conciseFillers hfill]
    exact foldl_erase_id conciseFillers _ (fun f hf => (hfill f hf).1) hno
  have hntw : noTwoWs (conciseTransform t) = true := by
    unfold conciseTransform
    exact noTwoWs_trimWs _ (noTwoWs_collapseWs _)
  calc conciseTransform (conciseTransform t)
      = trimWs (collapseWs (conciseFillers.foldl
          (fun acc f => replaceWB true f [] acc) (conciseTransform t))) := rfl
    _ = trimWs (collapseWs (conciseTransform t)) := by rw [hid]
    _ = trimWs (conciseTransform t) := by rw [collapseWs_id _ hntw]
    _ = conciseTransform t := by
          unfold conciseTransform
          exact trimWs_idem _
